import Mathlib

/-!
Verification development for the gym workout-logging repository.

The Python sources are shallowly embedded as executable Lean definitions:

* machine floats that hold weights only ever arise from parsing decimal
  literals and from products with integers, so they are modelled as `ℚ`;
* Python exceptions are modelled by `Except String`;
* `datetime` timestamps are modelled as integer seconds, a `timedelta` of
  `d` days being `d * 86400`;
* character classes (`\s`, `\d`, `str.lower`, SQLite `LOWER`) are modelled
  over the repertoire the program actually processes: ASCII together with
  the Cyrillic alphabet.  SQLite `LOWER` folds ASCII letters only, which is
  exactly what the stock SQLite library does.
-/

namespace Gym

/-- Whitespace as used by Python `str.split`, `str.strip` and the regex
class `\s` on the texts this program handles. -/
def isPyWs (c : Char) : Bool :=
  c = ' ' || c = '\t' || c = '\n' || c = '\r' || c = '\x0b' || c = '\x0c'

/-- Python `str.lower` on one character, covering ASCII and Cyrillic
(`А`–`Я` maps to `а`–`я`, `Ё` to `ё`); other characters are untouched. -/
def pyLower (c : Char) : Char :=
  if 'A' ≤ c && c ≤ 'Z' then Char.ofNat (c.toNat + 32)
  else if 'А' ≤ c && c ≤ 'Я' then Char.ofNat (c.toNat + 32)
  else if c = 'Ё' then 'ё'
  else c

/-- SQLite built-in `LOWER` on one character: it folds ASCII letters only
and leaves every non-ASCII character (in particular Cyrillic) unchanged. -/
def sqliteLower (c : Char) : Char :=
  if 'A' ≤ c && c ≤ 'Z' then Char.ofNat (c.toNat + 32) else c

/-- The substring replacement `replace('ё', 'е')` (both Python and SQLite
`REPLACE`): the pattern is a single character, so it is a map. -/
def replaceYo (cs : List Char) : List Char :=
  cs.map (fun c => if c = 'ё' then 'е' else c)

/-- Python `str.strip()`: drop whitespace from both ends. -/
def pyStrip (cs : List Char) : List Char :=
  ((cs.dropWhile isPyWs).reverse.dropWhile isPyWs).reverse

/-- String wrapper for `pyStrip`. -/
def pyStripStr (s : String) : String :=
  ⟨pyStrip s.data⟩

/-- String wrapper for SQLite `LOWER`. -/
def sqlLowerStr (s : String) : String :=
  ⟨s.data.map sqliteLower⟩

/-- Source `gym/db.py`, `normalize_exercise_name`:
`name.lower().replace('ё', 'е').strip()`. -/
def normalize_exercise_name (s : String) : String :=
  ⟨pyStrip (replaceYo (s.data.map pyLower))⟩

/-- The SQL matching key used by `get_max_weight` and `get_last_exercise`:
`LOWER(REPLACE(name, 'ё', 'е'))` computed by SQLite on the stored name. -/
def sqlNameKey (s : String) : String :=
  ⟨(replaceYo s.data).map sqliteLower⟩

/-! ### The data model: `gym/models.py` -/

/-- Source `gym/models.py`, dataclass `Exercise`. -/
structure Exercise where
  id : Option Int
  name : String
  weight : ℚ
  reps : Int
  sets : Int
  note : Option String
  created_at : Int
deriving DecidableEq, Repr

/-- Message raised for a negative weight. -/
def errWeight : String := "Вес не может быть отрицательным"

/-- Message raised for fewer than one repetition. -/
def errReps : String := "Количество повторений должно быть >= 1"

/-- Message raised for fewer than one set. -/
def errSets : String := "Количество подходов должно быть >= 1"

/-- Message raised for a blank name. -/
def errName : String := "Название упражнения не может быть пустым"

/-- Source `gym/models.py`, `Exercise.__post_init__`: construction runs the
four validations in order and raises `ValueError` on the first failure. -/
def mkExercise (id : Option Int) (name : String) (weight : ℚ) (reps sets : Int)
    (note : Option String) (created_at : Int) : Except String Exercise :=
  if weight < 0 then .error errWeight
  else if reps < 1 then .error errReps
  else if sets < 1 then .error errSets
  else if name = "" ∨ pyStripStr name = "" then .error errName
  else .ok ⟨id, name, weight, reps, sets, note, created_at⟩

/-- Source `gym/models.py`, property `total_volume`:
`self.weight * self.reps * self.sets`. -/
def Exercise.total_volume (e : Exercise) : ℚ :=
  e.weight * (e.reps : ℚ) * (e.sets : ℚ)

/-! ### The record store: `gym/db.py`

The table is modelled as the list of its rows (each row an `Exercise`
whose `id` is set).  SQL queries become filters over that list. -/

/-- One step of the scan behind `ORDER BY weight DESC, created_at ASC
LIMIT 1`: keep the better of the accumulated pair and the next row, where
better means greater weight, ties going to the earlier creation time. -/
def maxStep (acc : Option (ℚ × Int)) (r : Exercise) : Option (ℚ × Int) :=
  match acc with
  | none => some (r.weight, r.created_at)
  | some (w, t) =>
      if w < r.weight ∨ (r.weight = w ∧ r.created_at < t) then
        some (r.weight, r.created_at)
      else some (w, t)

/-- Selection made by `ORDER BY weight DESC, created_at ASC LIMIT 1`. -/
def maxSelect (rows : List Exercise) : Option (ℚ × Int) :=
  rows.foldl maxStep none

/-- Row predicate of the `WHERE` clause in `get_max_weight`:
`LOWER(REPLACE(name, 'ё', 'е')) = ?` with the parameter
`normalize_exercise_name(exercise_name)` computed in Python. -/
def maxWeightMatches (exercise_name : String) (r : Exercise) : Bool :=
  sqlNameKey r.name = normalize_exercise_name exercise_name

/-- Source `gym/db.py`, `Database.get_max_weight`: normalize the query in
Python, compare it with the SQLite-computed key of each stored name, and
return the best (weight, created_at) pair, or `none` when nothing matches. -/
def get_max_weight (db : List Exercise) (exercise_name : String) :
    Option (ℚ × Int) :=
  maxSelect (db.filter (maxWeightMatches exercise_name))

/-- Insertion into a list kept sorted by `created_at` ascending. -/
def insertByTime (r : Exercise) : List Exercise → List Exercise
  | [] => [r]
  | x :: xs =>
      if r.created_at < x.created_at then r :: x :: xs
      else x :: insertByTime r xs

/-- Result order of `ORDER BY created_at ASC`. -/
def sortByTime (rows : List Exercise) : List Exercise :=
  rows.foldr insertByTime []

/-- Message of the `ValueError` raised by `get_exercise_history`. -/
def errDays : String := "Количество дней должно быть положительным"

/-- Row predicate of the `WHERE` clause in `get_exercise_history`:
`LOWER(name) = LOWER(?) AND created_at >= ?`, the parameters being
`exercise_name.strip()` and `now - timedelta(days=days)`.  Note that this
query folds case with plain SQLite `LOWER` and does not replace `ё`. -/
def historyMatches (now : Int) (exercise_name : String) (days : Int)
    (r : Exercise) : Bool :=
  sqlLowerStr r.name = sqlLowerStr (pyStripStr exercise_name) &&
    decide (now - days * 86400 ≤ r.created_at)

/-- Source `gym/db.py`, `Database.get_exercise_history`: reject
`days <= 0` before touching the store, otherwise return the matching rows
of the last `days` days ordered oldest first. -/
def get_exercise_history (now : Int) (db : List Exercise)
    (exercise_name : String) (days : Int) : Except String (List Exercise) :=
  if days ≤ 0 then .error errDays
  else .ok (sortByTime (db.filter (historyMatches now exercise_name days)))

/-! ### The numeral normalizer: `gym/parser.py` -/

/-- Source `gym/parser.py`, table `UNITS` (number words 0–19). -/
def UNITS : List (List Char × Nat) :=
  [("ноль".data, 0), ("один".data, 1), ("одна".data, 1), ("два".data, 2),
   ("две".data, 2), ("три".data, 3), ("четыре".data, 4), ("пять".data, 5),
   ("шесть".data, 6), ("семь".data, 7), ("восемь".data, 8),
   ("девять".data, 9), ("десять".data, 10), ("одиннадцать".data, 11),
   ("двенадцать".data, 12), ("тринадцать".data, 13),
   ("четырнадцать".data, 14), ("пятнадцать".data, 15),
   ("шестнадцать".data, 16), ("семнадцать".data, 17),
   ("восемнадцать".data, 18), ("девятнадцать".data, 19)]

/-- Source `gym/parser.py`, table `TENS` (20, 30, …, 90). -/
def TENS : List (List Char × Nat) :=
  [("двадцать".data, 20), ("тридцать".data, 30), ("сорок".data, 40),
   ("пятьдесят".data, 50), ("шестьдесят".data, 60), ("семьдесят".data, 70),
   ("восемьдесят".data, 80), ("девяносто".data, 90)]

/-- Source `gym/parser.py`, table `HUNDREDS` (100, 200, 300). -/
def HUNDREDS : List (List Char × Nat) :=
  [("сто".data, 100), ("двести".data, 200), ("триста".data, 300)]

/-- Numeric value of one lowercased word, checking the tables in the order
the source does (hundreds, then tens, then units). -/
def wordValue (w : List Char) : Option Nat :=
  match HUNDREDS.lookup w with
  | some v => some v
  | none =>
    match TENS.lookup w with
    | some v => some v
    | none => UNITS.lookup w

/-- Every number word of the three tables, the vocabulary scanned by
`parse_voice_numbers`. -/
def allNumberWords : List (List Char) :=
  UNITS.map Prod.fst ++ TENS.map Prod.fst ++ HUNDREDS.map Prod.fst

/-- Membership test `word_lower in all_number_words`. -/
def isNumberWord (w : List Char) : Bool :=
  allNumberWords.contains w

/-- Source `gym/parser.py`, `_parse_single_number`: sum the values of the
words, returning `none` for an empty list or an unknown word. -/
def parse_single_number (words : List (List Char)) : Option Nat :=
  if words = [] then none
  else
    words.foldl
      (fun acc word =>
        match acc with
        | none => none
        | some t =>
          match wordValue (word.map pyLower) with
          | some v => some (t + v)
          | none => none)
      (some 0)

/-- Python `str(n)` for a natural number. -/
def natToDigits (n : Nat) : List Char :=
  Nat.toDigits 10 n

/-- Python `text.split()`: split on whitespace runs, discarding empties.
The accumulator holds the current token reversed. -/
def pySplitAux : List Char → List Char → List (List Char)
  | [], acc => if acc = [] then [] else [acc.reverse]
  | c :: cs, acc =>
      if isPyWs c then
        if acc = [] then pySplitAux cs [] else acc.reverse :: pySplitAux cs []
      else pySplitAux cs (c :: acc)

/-- Python `text.split()` with no separator argument. -/
def pySplit (cs : List Char) : List (List Char) :=
  pySplitAux cs []

/-- Python `' '.join(tokens)`. -/
def joinSp : List (List Char) → List Char
  | [] => []
  | [t] => t
  | t :: ts => t ++ ' ' :: joinSp ts

/-- Flush of an accumulated number-word run: emit the decimal digits of its
sum, or (defensively — cannot happen for vocabulary words) the lowercased
words themselves. -/
def pvnFlush (result current : List (List Char)) : List (List Char) :=
  if current = [] then result
  else
    match parse_single_number current with
    | some n => result ++ [natToDigits n]
    | none => result ++ current

/-- Main loop of `parse_voice_numbers`: accumulate lowercased number words
into `current`, flushing the run when a non-number token arrives. -/
def pvnLoop : List (List Char) → List (List Char) → List (List Char) →
    List (List Char)
  | [], result, current => pvnFlush result current
  | w :: ws, result, current =>
      let wl := w.map pyLower
      if isNumberWord wl then pvnLoop ws result (current ++ [wl])
      else if current = [] then pvnLoop ws (result ++ [w]) []
      else pvnLoop ws (pvnFlush result current ++ [w]) []

/-- Source `gym/parser.py`, `parse_voice_numbers`: rewrite runs of Russian
number words as decimal digit strings, re-joining the tokens with single
spaces. -/
def parse_voice_numbers (text : List Char) : List Char :=
  joinSp (pvnLoop (pySplit text) [] [])

/-! ### A small backtracking regex engine

The two handler patterns and the four terminal-parser patterns only repeat
single-character classes, so repetition over a class is a primitive and the
engine is structurally recursive.  `reRun` enumerates every way a regex can
match a prefix of the input, as (captures, consumed) pairs, in exactly the
priority order of a Python `re` backtracking search; the overall match is
the first entry that also satisfies the `$` anchor. -/

/-- Regexes as used by the source patterns.  All repetitions range over a
single-character class: `starG` is a greedy `*`, `plusG` a greedy `+`,
`plusL` a lazy `+?`. -/
inductive RE : Type where
  | eps : RE
  | cls : (Char → Bool) → RE
  | seq : RE → RE → RE
  | alt : RE → RE → RE
  | grp : Nat → RE → RE
  | starG : (Char → Bool) → RE
  | plusG : (Char → Bool) → RE
  | plusL : (Char → Bool) → RE

/-- Captured groups: group number paired with the captured characters. -/
abbrev Caps := List (Nat × List Char)

/-- Length of the maximal prefix of `cs` whose characters satisfy `p`. -/
def runLen (p : Char → Bool) : List Char → Nat
  | [] => 0
  | c :: cs => if p c then runLen p cs + 1 else 0

/-- All prefix matches of a regex against `cs` in backtracking priority
order, each as its captured groups and the number of characters consumed. -/
def reRun : RE → List Char → List (Caps × Nat)
  | .eps, _ => [([], 0)]
  | .cls _, [] => []
  | .cls p, c :: _ => if p c then [([], 1)] else []
  | .seq r1 r2, cs =>
      (reRun r1 cs).flatMap
        (fun a => (reRun r2 (cs.drop a.2)).map
          (fun b => (a.1 ++ b.1, a.2 + b.2)))
  | .alt r1 r2, cs => reRun r1 cs ++ reRun r2 cs
  | .grp i r, cs => (reRun r cs).map (fun a => ((i, cs.take a.2) :: a.1, a.2))
  | .starG p, cs => (List.range (runLen p cs + 1)).reverse.map (fun j => ([], j))
  | .plusG p, cs => (List.range' 1 (runLen p cs)).reverse.map (fun j => ([], j))
  | .plusL p, cs => (List.range' 1 (runLen p cs)).map (fun j => ([], j))

/-- The `$` anchor of `re.match` without `MULTILINE`: end of the string, or
just before one final newline. -/
def endOk (rest : List Char) : Bool :=
  rest = [] || rest = ['\n']

/-- Python `re.match(pattern, text)` for a pattern ending in `$`: the first
prefix match, in backtracking order, whose remainder satisfies the anchor. -/
def reMatch (r : RE) (cs : List Char) : Option Caps :=
  ((reRun r cs).find? (fun a => endOk (cs.drop a.2))).map Prod.fst

/-- Python `match.group(i)`: `none` when the group did not participate. -/
def capStr (caps : Caps) (i : Nat) : Option (List Char) :=
  caps.lookup i

/-- Sequencing of a pattern list. -/
def seqs : List RE → RE
  | [] => .eps
  | [r] => r
  | r :: rs => .seq r (seqs rs)

/-- Greedy `?` over a regex: try it, then the empty alternative. -/
def ropt (r : RE) : RE :=
  .alt r .eps

/-- The class `.` (any character except a newline). -/
def dotCh (c : Char) : Bool :=
  c ≠ '\n'

/-- The class `\d`. -/
def digitCh (c : Char) : Bool :=
  c.isDigit

/-- A literal character. -/
def chCl (a : Char) : RE :=
  .cls (fun c => c = a)

/-- A literal character under `re.IGNORECASE`. -/
def chCI (a : Char) : RE :=
  .cls (fun c => pyLower c = pyLower a)

/-- A literal string (each character exact). -/
def litStr : List Char → RE
  | [] => .eps
  | [c] => chCl c
  | c :: cs => .seq (chCl c) (litStr cs)

/-- The group `(\d+(?:\.\d+)?)` without its capture: an integer part and an
optional fractional part. -/
def numCore : RE :=
  .seq (.plusG digitCh) (ropt (.seq (chCl '.') (.plusG digitCh)))

/-! ### The free-text parser: `bot/handlers.py`, `parse_add_input` -/

/-- The optional unit `(?:кг|kg)?` of the handler patterns (compiled with
`re.IGNORECASE`). -/
def kgOptCI : RE :=
  ropt (.alt (.seq (chCI 'к') (chCI 'г')) (.seq (chCI 'k') (chCI 'g')))

/-- The class `[xх]` under `re.IGNORECASE` (Latin and Cyrillic, either
case). -/
def xClsCI : RE :=
  .cls (fun c => c = 'x' || c = 'X' || c = 'х' || c = 'Х')

/-- The optional trailing note `(?:\s+(.*))?$` of both handler patterns. -/
def noteOpt : RE :=
  ropt (.seq (.plusG isPyWs) (.grp 5 (.starG dotCh)))

/-- Source `bot/handlers.py`, `pattern_x`:
`^(.+?)\s+(\d+(?:\.\d+)?)\s*(?:кг|kg)?\s+(\d+)\s*[xх]\s*(\d+)(?:\s+(.*))?$`
compiled with `re.IGNORECASE`. -/
def patternX : RE :=
  seqs [.grp 1 (.plusL dotCh), .plusG isPyWs, .grp 2 numCore, .starG isPyWs,
    kgOptCI, .plusG isPyWs, .grp 3 (.plusG digitCh), .starG isPyWs, xClsCI,
    .starG isPyWs, .grp 4 (.plusG digitCh), noteOpt]

/-- Source `bot/handlers.py`, `pattern_spaces`:
`^(.+?)\s+(\d+(?:\.\d+)?)\s*(?:кг|kg)?\s+(\d+)\s+(\d+)(?:\s+(.*))?$`
compiled with `re.IGNORECASE`. -/
def patternSpaces : RE :=
  seqs [.grp 1 (.plusL dotCh), .plusG isPyWs, .grp 2 numCore, .starG isPyWs,
    kgOptCI, .plusG isPyWs, .grp 3 (.plusG digitCh), .plusG isPyWs,
    .grp 4 (.plusG digitCh), noteOpt]

/-- Python `int(s)` on a digit string. -/
def natOfDigits (cs : List Char) : Nat :=
  cs.foldl (fun n c => n * 10 + (c.toNat - '0'.toNat)) 0

/-- Python `float(s)` on a string matched by `\d+(?:\.\d+)?`. -/
def ratOfNumStr (cs : List Char) : ℚ :=
  let ip := cs.takeWhile digitCh
  match cs.drop ip.length with
  | '.' :: fr => (natOfDigits ip : ℚ) + (natOfDigits fr : ℚ) / (10 : ℚ) ^ fr.length
  | _ => (natOfDigits ip : ℚ)

/-- The fixed `ValueError` message of `parse_add_input` when neither
pattern matches; it does not mention the rejected input. -/
def hintMsg : String :=
  "Неверный формат. Используйте:\nназвание вес повторения подходы [заметка]\nПример: жим лежа 80 8 3 или жим 80 8x3"

/-- Record construction shared by the two match branches of
`parse_add_input`: strip the name, convert the numeric groups, and take the
trailing note when it is present and non-empty. -/
def exerciseOfCaps (now : Int) (caps : Caps) : Except String Exercise :=
  let name : String := ⟨pyStrip ((capStr caps 1).getD [])⟩
  let weight := ratOfNumStr ((capStr caps 2).getD [])
  let reps : Int := natOfDigits ((capStr caps 3).getD [])
  let sets : Int := natOfDigits ((capStr caps 4).getD [])
  let note : Option String :=
    match capStr caps 5 with
    | some n => if n = [] then none else some ⟨pyStrip n⟩
    | none => none
  mkExercise none name weight reps sets note now

/-- Source `bot/handlers.py`, `parse_add_input`: normalize number words,
try `pattern_x` then `pattern_spaces`, and construct the record from the
first match; a validation failure inside construction propagates, and when
no pattern matches the fixed hint message is raised. -/
def parse_add_input (now : Int) (text : String) : Except String Exercise :=
  let t := parse_voice_numbers text.data
  match reMatch patternX t with
  | some caps => exerciseOfCaps now caps
  | none =>
    match reMatch patternSpaces t with
    | some caps => exerciseOfCaps now caps
    | none => .error hintMsg

/-! ### The segmented parser: `gym/parser.py`, `parse_exercise_input` -/

/-- The class `[xх]` without `IGNORECASE` (the text is lowercased first). -/
def xClsLower : RE :=
  .cls (fun c => c = 'x' || c = 'х')

/-- Source `gym/parser.py`, `pattern_full`:
`^(\d+(?:\.\d+)?)\s*(?:kg|кг)?\s+(\d+)\s*reps?\s+(\d+)\s*sets?$`. -/
def patternFull : RE :=
  seqs [.grp 1 numCore, .starG isPyWs, ropt (.alt (litStr "kg".data) (litStr "кг".data)),
    .plusG isPyWs, .grp 2 (.plusG digitCh), .starG isPyWs, litStr "rep".data,
    ropt (chCl 's'), .plusG isPyWs, .grp 3 (.plusG digitCh), .starG isPyWs,
    litStr "set".data, ropt (chCl 's')]

/-- Source `gym/parser.py`, `pattern_kg_x`:
`^(\d+(?:\.\d+)?)\s*(?:kg|кг)\s+(\d+)\s*[xх]\s*(\d+)$`. -/
def patternKgX : RE :=
  seqs [.grp 1 numCore, .starG isPyWs, .alt (litStr "kg".data) (litStr "кг".data),
    .plusG isPyWs, .grp 2 (.plusG digitCh), .starG isPyWs, xClsLower,
    .starG isPyWs, .grp 3 (.plusG digitCh)]

/-- Source `gym/parser.py`, `pattern_x`:
`^(\d+(?:\.\d+)?)\s+(\d+)\s*[xх]\s*(\d+)$`. -/
def patternNoKgX : RE :=
  seqs [.grp 1 numCore, .plusG isPyWs, .grp 2 (.plusG digitCh),
    .starG isPyWs, xClsLower, .starG isPyWs, .grp 3 (.plusG digitCh)]

/-- Source `gym/parser.py`, `pattern_spaces`:
`^(\d+(?:\.\d+)?)\s+(\d+)\s+(\d+)$`. -/
def patternThreeNums : RE :=
  seqs [.grp 1 numCore, .plusG isPyWs, .grp 2 (.plusG digitCh),
    .plusG isPyWs, .grp 3 (.plusG digitCh)]

/-- A single-quote character (U+0027). -/
def sq : Char := '\x27'

/-- A string wrapped in single quotes, as the f-string of the parser error
message renders its examples. -/
def quoted (s : String) : String :=
  ⟨sq :: s.data ++ [sq]⟩

/-- The `ValueError` message of `parse_exercise_input`; the f-string embeds
the original, unmodified input. -/
def peiErrMsg (input_str : String) : String :=
  "Unrecognized input format: " ++ quoted input_str ++ ". Supported formats: " ++
    quoted "80kg 8reps 3sets" ++ ", " ++ quoted "80kg 8x3" ++ ", " ++
    quoted "100 5x4" ++ ", " ++ quoted "80 8 3"

/-- The `(weight, reps, sets)` triple extracted from a match of one of the
four terminal patterns; no range validation is applied. -/
def tripleOfCaps (caps : Caps) : ℚ × Nat × Nat :=
  (ratOfNumStr ((capStr caps 1).getD []),
   natOfDigits ((capStr caps 2).getD []),
   natOfDigits ((capStr caps 3).getD []))

/-- The normalized text `parse_exercise_input` matches against:
`input_str.strip().lower()` followed by `parse_voice_numbers`. -/
def peiCanon (input_str : String) : List Char :=
  parse_voice_numbers ((pyStrip input_str.data).map pyLower)

/-- Source `gym/parser.py`, `parse_exercise_input`: try the four patterns
in order on the normalized text and return the extracted triple of the
first match, with no record construction and no range checks; raise only
when no pattern matches. -/
def parse_exercise_input (input_str : String) : Except String (ℚ × Nat × Nat) :=
  let t := peiCanon input_str
  match reMatch patternFull t with
  | some caps => .ok (tripleOfCaps caps)
  | none =>
    match reMatch patternKgX t with
    | some caps => .ok (tripleOfCaps caps)
    | none =>
      match reMatch patternNoKgX t with
      | some caps => .ok (tripleOfCaps caps)
      | none =>
        match reMatch patternThreeNums t with
        | some caps => .ok (tripleOfCaps caps)
        | none => .error (peiErrMsg input_str)

/-! ### Views of the two handler patterns used in the proofs -/

/-- The part of `pattern_x` after the lazy name group: everything from the
mandatory whitespace on. -/
def tailX : RE :=
  seqs [.plusG isPyWs, .grp 2 numCore, .starG isPyWs, kgOptCI, .plusG isPyWs,
    .grp 3 (.plusG digitCh), .starG isPyWs, xClsCI, .starG isPyWs,
    .grp 4 (.plusG digitCh), noteOpt]

/-- The part of `pattern_spaces` after the lazy name group. -/
def tailSp : RE :=
  seqs [.plusG isPyWs, .grp 2 numCore, .starG isPyWs, kgOptCI, .plusG isPyWs,
    .grp 3 (.plusG digitCh), .plusG isPyWs, .grp 4 (.plusG digitCh), noteOpt]

/-- Anchored match of a regex against a whole suffix: the first entry of
the backtracking enumeration whose remainder satisfies the `$` anchor,
kept together with its consumed length. -/
def tailMatch (r : RE) (u : List Char) : Option (Caps × Nat) :=
  (reRun r u).find? (fun b => endOk (u.drop b.2))

/-- `tailX` after its mandatory whitespace. -/
def tailXr : RE :=
  seqs [.grp 2 numCore, .starG isPyWs, kgOptCI, .plusG isPyWs,
    .grp 3 (.plusG digitCh), .starG isPyWs, xClsCI, .starG isPyWs,
    .grp 4 (.plusG digitCh), noteOpt]

/-- `tailX` after the weight group. -/
def restX4 : RE :=
  seqs [.starG isPyWs, kgOptCI, .plusG isPyWs, .grp 3 (.plusG digitCh),
    .starG isPyWs, xClsCI, .starG isPyWs, .grp 4 (.plusG digitCh), noteOpt]

/-- `tailX` from the reps group on. -/
def restX7 : RE :=
  seqs [.grp 3 (.plusG digitCh), .starG isPyWs, xClsCI, .starG isPyWs,
    .grp 4 (.plusG digitCh), noteOpt]

/-- `tailX` after the x separator class. -/
def restX9 : RE :=
  seqs [.starG isPyWs, .grp 4 (.plusG digitCh), noteOpt]

/-- `tailSp` after its mandatory whitespace. -/
def tailSpr : RE :=
  seqs [.grp 2 numCore, .starG isPyWs, kgOptCI, .plusG isPyWs,
    .grp 3 (.plusG digitCh), .plusG isPyWs, .grp 4 (.plusG digitCh), noteOpt]

/-- `tailSp` after the weight group. -/
def restSp4 : RE :=
  seqs [.starG isPyWs, kgOptCI, .plusG isPyWs, .grp 3 (.plusG digitCh),
    .plusG isPyWs, .grp 4 (.plusG digitCh), noteOpt]

/-- `tailSp` from the reps group on. -/
def restSp7 : RE :=
  seqs [.grp 3 (.plusG digitCh), .plusG isPyWs, .grp 4 (.plusG digitCh),
    noteOpt]

/-! ### Concrete stores used by the lookup claims -/

/-- Decidable equality of fallible results, for evaluating the model on
concrete inputs. -/
instance exceptDecEq {ε α : Type} [DecidableEq ε] [DecidableEq α] :
    DecidableEq (Except ε α) := fun a b =>
  match a, b with
  | .ok x, .ok y =>
      if h : x = y then isTrue (by rw [h]) else isFalse (by simp [h])
  | .error x, .error y =>
      if h : x = y then isTrue (by rw [h]) else isFalse (by simp [h])
  | .ok _, .error _ => isFalse (by simp)
  | .error _, .ok _ => isFalse (by simp)

/-- Substring occurrence test on character lists. -/
def containsSub (needle hay : List Char) : Bool :=
  (List.range (hay.length + 1)).any
    (fun i => (hay.drop i).take needle.length == needle)

/-- A store holding one record whose name has capital letters and `ё`. -/
def exDbMax : List Exercise :=
  [⟨some 1, "Жим лёжа", 80, 10, 4, none, 100⟩]

/-- A store holding one record whose name has a capital letter. -/
def exDbTyaga : List Exercise :=
  [⟨some 1, "Тяга", 120, 5, 3, none, 100⟩]

/-- A store holding one recent record stored with `е` in its name. -/
def exDbHist : List Exercise :=
  [⟨some 1, "жим лежа", 80, 10, 4, none, 999900⟩]

/-- A store with a weight tie resolved by the earlier date. -/
def exDbSel : List Exercise :=
  [⟨some 1, "тяга", 100, 5, 3, none, 50⟩,
   ⟨some 2, "тяга", 100, 5, 3, none, 20⟩,
   ⟨some 3, "тяга", 90, 5, 3, none, 10⟩]

end Gym

namespace Gym

/-- C1: the claim fails on the code.  The two query strings of the claim
have the same name-matching key as the stored name "Жим лёжа", yet
`get_max_weight` returns `none` for both, because SQLite `LOWER` folds only
ASCII letters, so the key it computes for the stored name keeps its capital
Cyrillic letters while the Python-normalized query is fully lowercased. -/
theorem c1_max_weight_fold_lookup_fails :
    normalize_exercise_name "Жим лёжа" = normalize_exercise_name "жим лежа" ∧
    normalize_exercise_name "Жим лёжа" = normalize_exercise_name "ЖИМ ЛЁЖА" ∧
    get_max_weight exDbMax "жим лежа" = none ∧
    get_max_weight exDbMax "ЖИМ ЛЁЖА" = none := by
  decide

/-- C2: the claim fails on the code.  A record stored as "жим лежа" lies
inside the 90-day window (the exact-spelling query returns it), yet the
query "жим лёжа" — equal to the stored name under the ё→е folding rule that
the claim demands — returns the empty history, because
`get_exercise_history` compares plain SQLite `LOWER` without folding `ё`.
The `days ≤ 0` rejection of the claim does hold. -/
theorem c2_history_fold_lookup_fails :
    normalize_exercise_name "жим лёжа" = normalize_exercise_name "жим лежа" ∧
    get_exercise_history 1000000 exDbHist "жим лежа" 90 = .ok exDbHist ∧
    get_exercise_history 1000000 exDbHist "жим лёжа" 90 = .ok [] ∧
    get_exercise_history 1000000 exDbHist "жим лёжа" 0 = .error errDays := by
  decide

/-- C8: parsing "становая восемьдесят 5x3" rewrites the number word
восемьдесят to 80 and yields the record (становая, 80.0, 5, 3). -/
theorem c8_number_word_weight_parsed :
    parse_add_input 0 "становая восемьдесят 5x3" =
      .ok ⟨none, "становая", 80, 5, 3, none, 0⟩ := by
  decide

/-- Any `ValueError` of record construction is one of the four validation
messages. -/
theorem mkExercise_error_cases {id : Option Int} {name : String} {w : ℚ}
    {r s : Int} {note : Option String} {t : Int} {e : String}
    (h : mkExercise id name w r s note t = .error e) :
    e = errWeight ∨ e = errReps ∨ e = errSets ∨ e = errName := by
  unfold mkExercise at h
  split at h
  · exact Or.inl (Except.error.inj h).symm
  · split at h
    · exact Or.inr (Or.inl (Except.error.inj h).symm)
    · split at h
      · exact Or.inr (Or.inr (Or.inl (Except.error.inj h).symm))
      · split at h
        · exact Or.inr (Or.inr (Or.inr (Except.error.inj h).symm))
        · exact Except.noConfusion h

/-- C4: construction rejects any negative weight, reps below one or sets
below one whatever the other fields are, and a text that matches the
x-shape structurally but carries reps = 0 makes the parse fail with the
reps validation message instead of returning a record. -/
theorem c4_validation_rejects_out_of_range :
    (∀ (id : Option Int) (name : String) (w : ℚ) (r s : Int)
        (note : Option String) (t : Int),
      w < 0 ∨ r < 1 ∨ s < 1 →
      ∃ e, mkExercise id name w r s note t = .error e) ∧
    parse_add_input 0 "жим 80 0x3" = .error errReps := by
  refine ⟨?_, by decide⟩
  intro id name w r s note t h
  unfold mkExercise
  split
  · exact ⟨errWeight, rfl⟩
  · split
    · exact ⟨errReps, rfl⟩
    · split
      · exact ⟨errSets, rfl⟩
      · rename_i hw hr hs
        rcases h with h | h | h
        · exact absurd h hw
        · exact absurd h hr
        · exact absurd h hs

/-- Witness for C4 at a concrete out-of-range field. -/
theorem c4_witness :
    ((-1 : ℚ) < 0 ∨ (5 : Int) < 1 ∨ (3 : Int) < 1) ∧
    ∃ e, mkExercise none "жим" (-1) 5 3 none 0 = .error e :=
  ⟨Or.inl (by norm_num),
   c4_validation_rejects_out_of_range.1 none "жим" (-1) 5 3 none 0
     (Or.inl (by norm_num))⟩

/-- C5: for any weight ≥ 0, reps ≥ 1, sets ≥ 1 and non-blank name the
construction succeeds with exactly the given fields, and the total volume
of the record is weight · reps · sets. -/
theorem c5_valid_construction (id : Option Int) (name : String) (w : ℚ)
    (r s : Int) (note : Option String) (t : Int)
    (hw : 0 ≤ w) (hr : 1 ≤ r) (hs : 1 ≤ s) (hn : pyStripStr name ≠ "") :
    mkExercise id name w r s note t = .ok ⟨id, name, w, r, s, note, t⟩ ∧
    Exercise.total_volume ⟨id, name, w, r, s, note, t⟩ = w * (r : ℚ) * (s : ℚ) := by
  have hw' : ¬ w < 0 := not_lt.mpr hw
  have hr' : ¬ r < 1 := not_lt.mpr hr
  have hs' : ¬ s < 1 := not_lt.mpr hs
  have hname : ¬ (name = "" ∨ pyStripStr name = "") := by
    rintro (h | h)
    · exact hn (by rw [h]; decide)
    · exact hn h
  constructor
  · unfold mkExercise
    simp only [hw', hr', hs', hname, if_false]
  · rfl

/-- Witness for C5 at a concrete valid record. -/
theorem c5_witness :
    (0 : ℚ) ≤ 80 ∧ (1 : Int) ≤ 8 ∧ (1 : Int) ≤ 3 ∧ pyStripStr "жим" ≠ "" ∧
    mkExercise none "жим" 80 8 3 none 0 = .ok ⟨none, "жим", 80, 8, 3, none, 0⟩ ∧
    Exercise.total_volume ⟨none, "жим", 80, 8, 3, none, 0⟩ = 80 * (8 : ℚ) * (3 : ℚ) := by
  have h := c5_valid_construction none "жим" 80 8 3 none 0 (by norm_num)
    (by norm_num) (by norm_num) (by decide)
  exact ⟨by norm_num, by norm_num, by norm_num, by decide, h.1, h.2⟩

/-- C3: the claim fails on the code.  On the unparsable input "жим абв"
the free-text parser raises the fixed hint message, and that message does
not contain the original input anywhere. -/
theorem c3_error_lacks_original_input :
    parse_add_input 0 "жим абв" = .error hintMsg ∧
    containsSub "жим абв".data hintMsg.data = false := by
  decide

/-- C3 as amended: whenever the free-text parser fails, no record is
returned and the error is either the fixed format hint (which describes
the accepted shapes but does not echo the input) or one of the four
validation messages from record construction. -/
theorem c3_failure_classification (now : Int) (s : String) (e : String)
    (h : parse_add_input now s = .error e) :
    e = hintMsg ∨ e = errWeight ∨ e = errReps ∨ e = errSets ∨ e = errName := by
  unfold parse_add_input at h
  dsimp only at h
  cases hx : reMatch patternX (parse_voice_numbers s.data) with
  | some caps =>
      rw [hx] at h
      exact Or.inr (mkExercise_error_cases h)
  | none =>
      rw [hx] at h
      cases hy : reMatch patternSpaces (parse_voice_numbers s.data) with
      | some caps =>
          rw [hy] at h
          exact Or.inr (mkExercise_error_cases h)
      | none =>
          rw [hy] at h
          exact Or.inl (Except.error.inj h).symm

/-- Witness for C3 as amended, at the concrete failing input. -/
theorem c3_witness :
    parse_add_input 0 "жим абв" = .error hintMsg ∧
    (hintMsg = hintMsg ∨ hintMsg = errWeight ∨ hintMsg = errReps ∨
      hintMsg = errSets ∨ hintMsg = errName) :=
  ⟨by decide, c3_failure_classification 0 "жим абв" hintMsg (by decide)⟩

/-- C10: the already-segmented parser applies no range validation — on
"80 0x3" it returns (80, 0, 3) with reps = 0 — it raises exactly when none
of its four shapes matches the normalized text, and whenever a shape does
match it returns the extracted triple as is. -/
theorem c10_segmented_parser_unvalidated :
    parse_exercise_input "80 0x3" = .ok (80, 0, 3) ∧
    (∀ s : String,
      (∃ m, parse_exercise_input s = .error m) ↔
        (reMatch patternFull (peiCanon s) = none ∧
         reMatch patternKgX (peiCanon s) = none ∧
         reMatch patternNoKgX (peiCanon s) = none ∧
         reMatch patternThreeNums (peiCanon s) = none)) ∧
    (∀ s caps, reMatch patternFull (peiCanon s) = some caps →
      parse_exercise_input s = .ok (tripleOfCaps caps)) ∧
    (∀ s caps, reMatch patternFull (peiCanon s) = none →
      reMatch patternKgX (peiCanon s) = some caps →
      parse_exercise_input s = .ok (tripleOfCaps caps)) ∧
    (∀ s caps, reMatch patternFull (peiCanon s) = none →
      reMatch patternKgX (peiCanon s) = none →
      reMatch patternNoKgX (peiCanon s) = some caps →
      parse_exercise_input s = .ok (tripleOfCaps caps)) ∧
    (∀ s caps, reMatch patternFull (peiCanon s) = none →
      reMatch patternKgX (peiCanon s) = none →
      reMatch patternNoKgX (peiCanon s) = none →
      reMatch patternThreeNums (peiCanon s) = some caps →
      parse_exercise_input s = .ok (tripleOfCaps caps)) := by
  refine ⟨by decide, ?_, ?_, ?_, ?_, ?_⟩
  · intro s
    unfold parse_exercise_input
    dsimp only
    cases h1 : reMatch patternFull (peiCanon s) <;> simp only [h1]
    · cases h2 : reMatch patternKgX (peiCanon s) <;> simp only [h2]
      · cases h3 : reMatch patternNoKgX (peiCanon s) <;> simp only [h3]
        · cases h4 : reMatch patternThreeNums (peiCanon s) <;> simp [h4]
        · simp
      · simp
    · simp
  · intro s caps h1
    unfold parse_exercise_input
    dsimp only
    simp only [h1]
  · intro s caps h1 h2
    unfold parse_exercise_input
    dsimp only
    simp only [h1, h2]
  · intro s caps h1 h2 h3
    unfold parse_exercise_input
    dsimp only
    simp only [h1, h2, h3]
  · intro s caps h1 h2 h3 h4
    unfold parse_exercise_input
    dsimp only
    simp only [h1, h2, h3, h4]

/-- Witness for C10 at a concrete unparsable input. -/
theorem c10_witness :
    (reMatch patternFull (peiCanon "жим абв") = none ∧
     reMatch patternKgX (peiCanon "жим абв") = none ∧
     reMatch patternNoKgX (peiCanon "жим абв") = none ∧
     reMatch patternThreeNums (peiCanon "жим абв") = none) ∧
    ∃ m, parse_exercise_input "жим абв" = .error m :=
  ⟨by decide, (c10_segmented_parser_unvalidated.2.1 "жим абв").mpr (by decide)⟩

/-- Invariant of the fold behind `get_max_weight`, for a non-empty start:
the result dominates the accumulator and every scanned row in the order
(weight descending, creation time ascending), and originates from the
accumulator or from a row. -/
theorem maxStep_fold_spec (rows : List Exercise) :
    ∀ w0 t0 : _, ∃ w t,
      rows.foldl maxStep (some (w0, t0)) = some (w, t) ∧
      ((w = w0 ∧ t = t0) ∨ ∃ r ∈ rows, r.weight = w ∧ r.created_at = t) ∧
      (w0 ≤ w ∧ (w0 = w → t ≤ t0)) ∧
      (∀ r ∈ rows, r.weight ≤ w ∧ (r.weight = w → t ≤ r.created_at)) := by
  induction rows with
  | nil =>
      intro w0 t0
      exact ⟨w0, t0, rfl, Or.inl ⟨rfl, rfl⟩, ⟨le_refl _, fun _ => le_refl _⟩,
        by simp⟩
  | cons r rest ih =>
      intro w0 t0
      rw [List.foldl_cons]
      by_cases hc : w0 < r.weight ∨ (r.weight = w0 ∧ r.created_at < t0)
      · rw [show maxStep (some (w0, t0)) r = some (r.weight, r.created_at) by
          simp only [maxStep]; rw [if_pos hc]]
        obtain ⟨w, t, hfold, horig, ⟨hw1, ht1⟩, hall⟩ := ih r.weight r.created_at
        have hw0r : w0 ≤ r.weight := by
          rcases hc with h | ⟨h, _⟩
          · exact le_of_lt h
          · exact le_of_eq h.symm
        refine ⟨w, t, hfold, ?_, ⟨le_trans hw0r hw1, ?_⟩, ?_⟩
        · rcases horig with ⟨hw, ht⟩ | ⟨r', hr', h1, h2⟩
          · exact Or.inr ⟨r, List.mem_cons_self r rest, hw.symm, ht.symm⟩
          · exact Or.inr ⟨r', List.mem_cons_of_mem r hr', h1, h2⟩
        · intro hww
          have hrw : r.weight = w0 := le_antisymm (hww ▸ hw1) hw0r
          rcases hc with h | ⟨_, h⟩
          · exact absurd (hrw ▸ h) (lt_irrefl w0)
          · exact le_trans (ht1 (hrw.trans hww)) (le_of_lt h)
        · intro r' hr'
          rcases List.mem_cons.mp hr' with rfl | hr'
          · exact ⟨hw1, ht1⟩
          · exact hall r' hr'
      · rw [show maxStep (some (w0, t0)) r = some (w0, t0) by
          simp only [maxStep]; rw [if_neg hc]]
        push_neg at hc
        obtain ⟨hc1, hc2⟩ := hc
        have hrw0 : r.weight ≤ w0 := hc1
        obtain ⟨w, t, hfold, horig, ⟨hw1, ht1⟩, hall⟩ := ih w0 t0
        refine ⟨w, t, hfold, ?_, ⟨hw1, ht1⟩, ?_⟩
        · rcases horig with h | ⟨r', hr', h1, h2⟩
          · exact Or.inl h
          · exact Or.inr ⟨r', List.mem_cons_of_mem r hr', h1, h2⟩
        · intro r' hr'
          rcases List.mem_cons.mp hr' with rfl | hr'
          · refine ⟨le_trans hrw0 hw1, ?_⟩
            intro hww
            have hw0w : w0 = w := le_antisymm hw1 (hww ▸ hrw0)
            exact le_trans (ht1 hw0w) (hc2 (hw0w ▸ hww))
          · exact hall r' hr'

/-- Specification of `maxSelect`: it is `none` exactly on the empty row
set, and otherwise returns a pair realized by some row, of maximal weight,
with the earliest creation time among rows of that weight. -/
theorem maxSelect_spec (rows : List Exercise) :
    (maxSelect rows = none ↔ rows = []) ∧
    (∀ w t, maxSelect rows = some (w, t) →
      (∃ r ∈ rows, r.weight = w ∧ r.created_at = t) ∧
      (∀ r ∈ rows, r.weight ≤ w) ∧
      (∀ r ∈ rows, r.weight = w → t ≤ r.created_at)) := by
  cases rows with
  | nil => exact ⟨by simp [maxSelect], by simp [maxSelect]⟩
  | cons r rest =>
      obtain ⟨w, t, hfold, horig, ⟨hw1, ht1⟩, hall⟩ :=
        maxStep_fold_spec rest r.weight r.created_at
      have hsel : maxSelect (r :: rest) = some (w, t) := by
        unfold maxSelect
        rw [List.foldl_cons]
        exact hfold
      constructor
      · rw [hsel]
        simp
      · intro w' t' hw't'
        rw [hsel] at hw't'
        obtain ⟨rfl, rfl⟩ : w = w' ∧ t = t' := by
          have := Option.some.inj hw't'
          exact ⟨congrArg Prod.fst this, congrArg Prod.snd this⟩
        refine ⟨?_, ?_, ?_⟩
        · rcases horig with ⟨hw, ht⟩ | ⟨r', hr', h1, h2⟩
          · exact ⟨r, List.mem_cons_self r rest, hw.symm, ht.symm⟩
          · exact ⟨r', List.mem_cons_of_mem r hr', h1, h2⟩
        · intro r' hr'
          rcases List.mem_cons.mp hr' with rfl | hr'
          · exact hw1
          · exact (hall r' hr').1
        · intro r' hr' hww
          rcases List.mem_cons.mp hr' with rfl | hr'
          · exact ht1 hww
          · exact (hall r' hr').2 hww

/-- C6: the claim fails on the code because of the same key mismatch as in
C1 — a record stored as "Тяга" matches the query "тяга" under the Name
Matching Key, yet `get_max_weight` returns `none`. -/
theorem c6_matching_counterexample :
    normalize_exercise_name "Тяга" = normalize_exercise_name "тяга" ∧
    get_max_weight exDbTyaga "тяга" = none := by
  decide

/-- C6 as amended: among the rows whose SQLite-computed key (ASCII
lowercase of the ё→е-replaced stored name) equals the Python-normalized
query, `get_max_weight` returns the row with the greatest weight,
tie-broken by the earliest creation time, and returns absence (never an
error) exactly when no row has a matching key. -/
theorem c6_max_weight_selection (db : List Exercise) (q : String) :
    (get_max_weight db q = none ↔ ∀ r ∈ db, maxWeightMatches q r = false) ∧
    (∀ w t, get_max_weight db q = some (w, t) →
      (∃ r ∈ db, maxWeightMatches q r = true ∧ r.weight = w ∧ r.created_at = t) ∧
      (∀ r ∈ db, maxWeightMatches q r = true → r.weight ≤ w) ∧
      (∀ r ∈ db, maxWeightMatches q r = true → r.weight = w →
        t ≤ r.created_at)) := by
  obtain ⟨hnone, hsome⟩ := maxSelect_spec (db.filter (maxWeightMatches q))
  constructor
  · rw [show get_max_weight db q = maxSelect (db.filter (maxWeightMatches q))
      from rfl, hnone, List.filter_eq_nil_iff]
    constructor
    · intro h r hr
      exact Bool.not_eq_true _ ▸ (by simpa using h r hr)
    · intro h r hr
      simp [h r hr]
  · intro w t hwt
    obtain ⟨⟨r, hr, h1, h2⟩, hmax, htie⟩ := hsome w t hwt
    refine ⟨⟨r, (List.mem_filter.mp hr).1, (List.mem_filter.mp hr).2, h1, h2⟩,
      ?_, ?_⟩
    · intro r' hr' hm
      exact hmax r' (List.mem_filter.mpr ⟨hr', hm⟩)
    · intro r' hr' hm hww
      exact htie r' (List.mem_filter.mpr ⟨hr', hm⟩) hww

/-- Witness for C6 as amended, on a store with a weight tie. -/
theorem c6_witness :
    get_max_weight exDbSel "тяга" = some (100, 20) ∧
    ∃ r ∈ exDbSel, maxWeightMatches "тяга" r = true ∧
      r.weight = 100 ∧ r.created_at = 20 :=
  ⟨by decide,
   ((c6_max_weight_selection exDbSel "тяга").2 100 20 (by decide)).1⟩

/-- A digit is not whitespace. -/
theorem notWs_of_digit (c : Char) (h : digitCh c = true) : isPyWs c = false := by
  unfold isPyWs
  simp only [Bool.or_eq_false_iff, decide_eq_false_iff_not]
  refine ⟨⟨⟨⟨⟨?_, ?_⟩, ?_⟩, ?_⟩, ?_⟩, ?_⟩ <;>
    · intro hc
      rw [hc] at h
      exact absurd h (by decide)

/-- A digit is left unchanged by Python lowercasing. -/
theorem pyLower_digit (c : Char) (h : digitCh c = true) : pyLower c = c := by
  unfold digitCh at h
  unfold pyLower
  have h1 : ¬ ('A' ≤ c) := by
    simp [Char.isDigit, UInt32.le_def, BitVec.le_def] at h
    intro hle
    rw [Char.le_def, UInt32.le_def, BitVec.le_def] at hle
    simp at hle
    omega
  have h2 : ¬ ('А' ≤ c) := by
    simp [Char.isDigit, UInt32.le_def, BitVec.le_def] at h
    intro hle
    rw [Char.le_def, UInt32.le_def, BitVec.le_def] at hle
    simp at hle
    omega
  have h3 : c ≠ 'Ё' := by
    intro hc
    rw [hc] at h
    exact absurd h (by decide)
  simp [h1, h2, h3]

/-- Mapping a function that fixes every element of a list is the
identity. -/
theorem map_eq_self_of_fixes {α : Type} (f : α → α) (l : List α)
    (h : ∀ a ∈ l, f a = a) : l.map f = l := by
  induction l with
  | nil => rfl
  | cons a l ih =>
      rw [List.map_cons, h a (List.mem_cons_self a l),
        ih (fun b hb => h b (List.mem_cons_of_mem a hb))]

/-- No vocabulary word of the numeral normalizer contains a digit. -/
theorem allNumberWords_no_digit :
    ∀ w ∈ allNumberWords, w.any digitCh = false := by
  decide

/-- A non-empty all-digit token is not a recognized number word. -/
theorem isNumberWord_digit_false (t : List Char) (hne : t ≠ [])
    (hd : ∀ c ∈ t, digitCh c = true) : isNumberWord t = false := by
  unfold isNumberWord
  by_contra hcon
  have hmem : t ∈ allNumberWords := by
    have : allNumberWords.contains t = true := by
      cases hh : allNumberWords.contains t
      · exact absurd hh hcon
      · rfl
    exact List.elem_iff.mp this
  have hany : t.any digitCh = true := by
    cases t with
    | nil => exact absurd rfl hne
    | cons c cs =>
        simp only [List.any_cons, Bool.or_eq_true]
        exact Or.inl (hd c (List.mem_cons_self c cs))
  rw [allNumberWords_no_digit t hmem] at hany
  exact Bool.false_ne_true hany

/-- The normalizer loop passes tokens through untouched when none of them
is a number word. -/
theorem pvnLoop_passthrough (toks : List (List Char)) :
    ∀ result, (∀ t ∈ toks, isNumberWord (t.map pyLower) = false) →
      pvnLoop toks result [] = result ++ toks := by
  induction toks with
  | nil =>
      intro result _
      simp [pvnLoop, pvnFlush]
  | cons t ts ih =>
      intro result h
      unfold pvnLoop
      simp only [h t (List.mem_cons_self t ts), Bool.false_eq_true, if_false,
        if_pos rfl]
      rw [ih (result ++ [t]) (fun u hu => h u (List.mem_cons_of_mem t hu))]
      simp

/-- Splitting consumes a whitespace-free token as a whole. -/
theorem pySplitAux_token (t : List Char) :
    ∀ cs acc, (∀ c ∈ t, isPyWs c = false) →
      pySplitAux (t ++ cs) acc = pySplitAux cs (t.reverse ++ acc) := by
  induction t with
  | nil => intro cs acc _; rfl
  | cons c t' ih =>
      intro cs acc h
      have hc : isPyWs c = false := h c (List.mem_cons_self c t')
      have step : pySplitAux (c :: (t' ++ cs)) acc = pySplitAux (t' ++ cs) (c :: acc) := by
        simp only [pySplitAux, hc, Bool.false_eq_true, if_false]
      rw [List.cons_append, step,
        ih cs (c :: acc) (fun d hd => h d (List.mem_cons_of_mem c hd))]
      simp

/-- Splitting a single-space join of non-empty whitespace-free tokens
recovers exactly those tokens. -/
theorem pySplit_joinSp (toks : List (List Char))
    (h : ∀ t ∈ toks, t ≠ [] ∧ ∀ c ∈ t, isPyWs c = false) :
    pySplit (joinSp toks) = toks := by
  induction toks with
  | nil => rfl
  | cons t ts ih =>
      cases ts with
      | nil =>
          obtain ⟨hne, hnw⟩ := h t (List.mem_cons_self t [])
          show pySplitAux (joinSp [t]) [] = [t]
          have hj : joinSp [t] = t := rfl
          have hpad : pySplitAux t [] = pySplitAux ([] : List Char) (t.reverse ++ []) := by
            conv_lhs => rw [show (t : List Char) = t ++ [] by simp]
            exact pySplitAux_token t [] [] hnw
          rw [hj, hpad]
          unfold pySplitAux
          rw [if_neg (by simpa using hne)]
          simp
      | cons t2 ts2 =>
          obtain ⟨hne, hnw⟩ := h t (List.mem_cons_self t (t2 :: ts2))
          have hj : joinSp (t :: t2 :: ts2) = t ++ ' ' :: joinSp (t2 :: ts2) :=
            rfl
          show pySplitAux (joinSp (t :: t2 :: ts2)) [] = t :: t2 :: ts2
          rw [hj]
          rw [pySplitAux_token t (' ' :: joinSp (t2 :: ts2)) [] hnw]
          have hsp : isPyWs ' ' = true := by decide
          have hrne : t.reverse ++ [] ≠ [] := by simpa using hne
          have hstep : pySplitAux (' ' :: joinSp (t2 :: ts2)) (t.reverse ++ []) =
              (t.reverse ++ []).reverse :: pySplitAux (joinSp (t2 :: ts2)) [] := by
            simp only [pySplitAux, hsp, if_true, hrne, if_false]
          rw [hstep]
          simp only [List.append_nil, List.reverse_reverse]
          rw [show pySplitAux (joinSp (t2 :: ts2)) [] = pySplit (joinSp (t2 :: ts2))
            from rfl]
          rw [ih (fun u hu => h u (List.mem_cons_of_mem t hu))]

/-- C7: the claim fails on the code.  On the digit-only input "80  5",
written with two separating spaces, the normalizer returns "80 5": it
re-joins the tokens with single spaces, so it is not the identity on every
digit-only string. -/
theorem c7_whitespace_counterexample :
    parse_voice_numbers "80  5".data = "80 5".data ∧
    parse_voice_numbers "80  5".data ≠ "80  5".data := by
  decide

/-- C7 as amended: on a single-space join of non-empty all-digit tokens —
digit-only text with canonical spacing — the normalizer is the identity. -/
theorem c7_normalizer_fixed_on_digit_tokens (toks : List (List Char))
    (h : ∀ t ∈ toks, t ≠ [] ∧ ∀ c ∈ t, digitCh c = true) :
    parse_voice_numbers (joinSp toks) = joinSp toks := by
  have hws : ∀ t ∈ toks, t ≠ [] ∧ ∀ c ∈ t, isPyWs c = false := fun t ht =>
    ⟨(h t ht).1, fun c hc => notWs_of_digit c ((h t ht).2 c hc)⟩
  unfold parse_voice_numbers
  rw [pySplit_joinSp toks hws]
  rw [pvnLoop_passthrough toks []]
  · rfl
  · intro t ht
    rw [map_eq_self_of_fixes pyLower t
      (fun c hc => pyLower_digit c ((h t ht).2 c hc))]
    exact isNumberWord_digit_false t ((h t ht).1) ((h t ht).2)

/-- Witness for C7 as amended, at the concrete token list ["80", "5"]. -/
theorem c7_witness :
    (∀ t ∈ [['8', '0'], ['5']], t ≠ ([] : List Char) ∧
      ∀ c ∈ t, digitCh c = true) ∧
    parse_voice_numbers (joinSp [['8', '0'], ['5']]) =
      joinSp [['8', '0'], ['5']] :=
  ⟨by decide, c7_normalizer_fixed_on_digit_tokens [['8', '0'], ['5']] (by decide)⟩

/-! ### Toolkit for the format-equivalence analysis (C9)

The lemmas below compute the backtracking engine symbolically on strings
assembled from an abstract name and abstract digit groups. -/

theorem runLen_cons_pos {p : Char → Bool} {c : Char} (u : List Char)
    (h : p c = true) : runLen p (c :: u) = runLen p u + 1 := by
  simp [runLen, h]

theorem runLen_cons_neg {p : Char → Bool} {c : Char} (u : List Char)
    (h : p c = false) : runLen p (c :: u) = 0 := by
  simp [runLen, h]

theorem runLen_append_all {p : Char → Bool} (v u : List Char)
    (h : ∀ c ∈ v, p c = true) : runLen p (v ++ u) = v.length + runLen p u := by
  induction v with
  | nil => simp
  | cons c v ih =>
      rw [List.cons_append, runLen_cons_pos _ (h c (List.mem_cons_self c v)),
        ih (fun d hd => h d (List.mem_cons_of_mem c hd))]
      simp
      omega

theorem runLen_all {p : Char → Bool} (v : List Char)
    (h : ∀ c ∈ v, p c = true) : runLen p v = v.length := by
  have := runLen_append_all v [] h
  simpa using this

/-- The character just after a maximal run fails the class. -/
theorem runLen_stop (p : Char → Bool) (u : List Char) :
    u.drop (runLen p u) = [] ∨
      ∃ c v, u.drop (runLen p u) = c :: v ∧ p c = false := by
  induction u with
  | nil => exact Or.inl rfl
  | cons c u ih =>
      cases hc : p c with
      | true => rw [runLen_cons_pos u hc]; simpa using ih
      | false =>
          rw [runLen_cons_neg u hc]
          exact Or.inr ⟨c, u, rfl, hc⟩

/-- Every position strictly inside a run carries a class character. -/
theorem runLen_within (p : Char → Bool) (u : List Char) :
    ∀ k, k < runLen p u → ∃ c v, u.drop k = c :: v ∧ p c = true := by
  induction u with
  | nil => intro k hk; simp [runLen] at hk
  | cons c u ih =>
      intro k hk
      cases hc : p c with
      | false => rw [runLen_cons_neg u hc] at hk; omega
      | true =>
          rw [runLen_cons_pos u hc] at hk
          cases k with
          | zero => exact ⟨c, u, rfl, hc⟩
          | succ k => exact ih k (by omega)

theorem ws_cases {c : Char} (h : isPyWs c = true) :
    c = ' ' ∨ c = '\t' ∨ c = '\n' ∨ c = '\r' ∨ c = '\x0b' ∨ c = '\x0c' := by
  have h2 := h
  simp only [isPyWs, Bool.or_eq_true, decide_eq_true_eq] at h2
  tauto

theorem ws_not_digit {c : Char} (h : isPyWs c = true) : digitCh c = false := by
  cases hd : digitCh c
  · rfl
  · rw [notWs_of_digit c hd] at h
    exact absurd h (by simp)

theorem digit_ne_dot {c : Char} (h : digitCh c = true) : c ≠ '.' := by
  intro hc
  rw [hc] at h
  exact absurd h (by decide)

theorem digit_not_x {c : Char} (h : digitCh c = true) :
    (c = 'x' || c = 'X' || c = 'х' || c = 'Х') = false := by
  simp only [Bool.or_eq_false_iff, decide_eq_false_iff_not]
  refine ⟨⟨⟨?_, ?_⟩, ?_⟩, ?_⟩ <;>
    · intro hc
      rw [hc] at h
      exact absurd h (by decide)

theorem ws_not_x {c : Char} (h : isPyWs c = true) :
    (c = 'x' || c = 'X' || c = 'х' || c = 'Х') = false := by
  rcases ws_cases h with rfl | rfl | rfl | rfl | rfl | rfl <;> decide

theorem digit_lower_ne_k {c : Char} (h : digitCh c = true) :
    pyLower c ≠ 'к' ∧ pyLower c ≠ 'k' := by
  rw [pyLower_digit c h]
  constructor <;>
    · intro hc
      rw [hc] at h
      exact absurd h (by decide)

theorem ws_lower_ne_k {c : Char} (h : isPyWs c = true) :
    pyLower c ≠ 'к' ∧ pyLower c ≠ 'k' := by
  rcases ws_cases h with rfl | rfl | rfl | rfl | rfl | rfl <;> exact ⟨by decide, by decide⟩

theorem dot_lower_ne_k : pyLower '.' ≠ 'к' ∧ pyLower '.' ≠ 'k' := by
  exact ⟨by decide, by decide⟩

/-- Two searches with pointwise-equal predicates agree. -/
theorem find?_pred_congr {α : Type} {p q : α → Bool} (l : List α)
    (h : ∀ a, p a = q a) : l.find? p = l.find? q := by
  induction l with
  | nil => rfl
  | cons a l ih => rw [List.find?_cons, List.find?_cons, h a, ih]

/-- Searching a concatenation of match lists searches each in turn. -/
theorem find?_flatMap {α β : Type} (l : List α) (f : α → List β)
    (p : β → Bool) :
    (l.flatMap f).find? p = l.findSome? (fun a => (f a).find? p) := by
  induction l with
  | nil => rfl
  | cons a l ih =>
      rw [List.flatMap_cons, List.find?_append, ih, List.findSome?_cons]
      cases (f a).find? p <;> simp [Option.or]

/-- Anchored matching of a sequence: enumerate the prefix matches of the
first part in priority order and anchor-match the second part on each
remaining suffix. -/
theorem tailMatch_seq (r1 r2 : RE) (u : List Char) :
    tailMatch (.seq r1 r2) u = (reRun r1 u).findSome?
      (fun a => (tailMatch r2 (u.drop a.2)).map
        (fun b => (a.1 ++ b.1, a.2 + b.2))) := by
  unfold tailMatch
  show ((reRun r1 u).flatMap _).find? _ = _
  rw [find?_flatMap]
  congr 1
  funext a
  rw [List.find?_map]
  congr 1
  apply find?_pred_congr
  intro b
  simp [Function.comp, List.drop_drop, Nat.add_comm]

/-- Anchored matching through a capture group records the consumed
prefix. -/
theorem tailMatch_grp (i : Nat) (r : RE) (u : List Char) :
    tailMatch (.grp i r) u =
      (tailMatch r u).map (fun b => ((i, u.take b.2) :: b.1, b.2)) := by
  unfold tailMatch
  show ((reRun r u).map _).find? _ = _
  rw [List.find?_map]
  rfl

/-- Anchored matching of the empty regex succeeds exactly at the anchor. -/
theorem tailMatch_eps (u : List Char) :
    tailMatch .eps u = if endOk u then some ([], 0) else none := by
  unfold tailMatch
  show List.find? _ [([], 0)] = _
  rw [List.find?_cons]
  simp only [List.drop_zero]
  cases endOk u <;> simp

/-- Anchored matching of an ordered alternative prefers the left branch. -/
theorem tailMatch_alt (r1 r2 : RE) (u : List Char) :
    tailMatch (.alt r1 r2) u = (tailMatch r1 u).or (tailMatch r2 u) := by
  unfold tailMatch
  show (List.find? _ (reRun r1 u ++ reRun r2 u)) = _
  rw [List.find?_append]

/-- The overall match of a handler pattern: try every lazy name length in
increasing order and anchor-match the tail after it. -/
theorem reMatch_nameSplit (tail : RE) (s : List Char) :
    reMatch (.seq (.grp 1 (.plusL dotCh)) tail) s =
      ((List.range' 1 (runLen dotCh s)).findSome?
        (fun j => (tailMatch tail (s.drop j)).map
          (fun b => ((1, s.take j) :: b.1, j + b.2)))).map Prod.fst := by
  unfold reMatch
  congr 1
  show ((reRun (.grp 1 (.plusL dotCh)) s).flatMap _).find? _ = _
  rw [find?_flatMap]
  show List.findSome? _ (((List.range' 1 (runLen dotCh s)).map _).map _) = _
  rw [List.findSome?_map, List.findSome?_map]
  congr 1
  funext j
  show List.find? _ (List.map _ (reRun tail (List.drop j s))) = _
  rw [List.find?_map]
  unfold tailMatch
  rw [find?_pred_congr (reRun tail (List.drop j s))
    (q := fun b => endOk (List.drop b.2 (List.drop j s)))]
  · rfl
  · intro b
    simp [Function.comp, List.drop_drop, Nat.add_comm]


theorem reRun_cls_nil (p : Char → Bool) : reRun (.cls p) [] = [] := rfl

theorem reRun_cls_pos {p : Char → Bool} {c : Char} (v : List Char)
    (h : p c = true) : reRun (.cls p) (c :: v) = [([], 1)] := by
  show (if p c = true then [(([] : Caps), 1)] else []) = _
  rw [h]
  rfl

theorem reRun_cls_neg {p : Char → Bool} {c : Char} (v : List Char)
    (h : p c = false) : reRun (.cls p) (c :: v) = [] := by
  show (if p c = true then [(([] : Caps), 1)] else []) = _
  rw [h]
  rfl

theorem reRun_plusG (p : Char → Bool) (u : List Char) :
    reRun (.plusG p) u =
      (List.range' 1 (runLen p u)).reverse.map (fun j => (([] : Caps), j)) := rfl

theorem reRun_starG (p : Char → Bool) (u : List Char) :
    reRun (.starG p) u =
      (List.range (runLen p u + 1)).reverse.map (fun j => (([] : Caps), j)) := rfl

theorem reRun_plusG_zero {p : Char → Bool} {u : List Char}
    (h : runLen p u = 0) : reRun (.plusG p) u = [] := by
  rw [reRun_plusG, h]
  rfl

theorem reRun_plusG_one {p : Char → Bool} {u : List Char}
    (h : runLen p u = 1) : reRun (.plusG p) u = [([], 1)] := by
  rw [reRun_plusG, h]
  rfl

theorem reRun_starG_zero {p : Char → Bool} {u : List Char}
    (h : runLen p u = 0) : reRun (.starG p) u = [([], 0)] := by
  rw [reRun_starG, h]
  rfl

theorem reRun_starG_one {p : Char → Bool} {u : List Char}
    (h : runLen p u = 1) : reRun (.starG p) u = [([], 1), ([], 0)] := by
  rw [reRun_starG, h]
  rfl

/-- Descending enumeration of a greedy repetition, exposing its head. -/
theorem range'_reverse_succ (m : Nat) :
    (List.range' 1 (m + 1)).reverse = (m + 1) :: (List.range' 1 m).reverse := by
  rw [List.range'_concat]
  simp
  omega

/-- The optional unit matcher reduces to the empty match when the text
does not start with а `к` or `k` letter in either case. -/
theorem reRun_kgOpt_empty (u : List Char)
    (h : ∀ c v, u = c :: v → pyLower c ≠ 'к' ∧ pyLower c ≠ 'k') :
    reRun kgOptCI u = [([], 0)] := by
  cases u with
  | nil => rfl
  | cons c v =>
      obtain ⟨h1, h2⟩ := h c v rfl
      have e1 : reRun (chCI 'к') (c :: v) = [] := by
        apply reRun_cls_neg
        simp only [show pyLower 'к' = 'к' from by decide]
        exact decide_eq_false h1
      have e2 : reRun (chCI 'k') (c :: v) = [] := by
        apply reRun_cls_neg
        simp only [show pyLower 'k' = 'k' from by decide]
        exact decide_eq_false h2
      show (reRun (.seq (chCI 'к') (chCI 'г')) (c :: v) ++
        reRun (.seq (chCI 'k') (chCI 'g')) (c :: v)) ++ reRun .eps (c :: v) = _
      rw [show reRun (.seq (chCI 'к') (chCI 'г')) (c :: v) =
          (reRun (chCI 'к') (c :: v)).flatMap _ from rfl,
        show reRun (.seq (chCI 'k') (chCI 'g')) (c :: v) =
          (reRun (chCI 'k') (c :: v)).flatMap _ from rfl, e1, e2]
      rfl

/-- The fractional-part option reduces to the empty match when the text
does not start with a dot. -/
theorem reRun_frOpt_empty (u : List Char)
    (h : ∀ c v, u = c :: v → c ≠ '.') :
    reRun (ropt (.seq (chCl '.') (.plusG digitCh))) u = [([], 0)] := by
  cases u with
  | nil => rfl
  | cons c v =>
      have e1 : reRun (chCl '.') (c :: v) = [] := by
        apply reRun_cls_neg
        exact decide_eq_false (h c v rfl)
      show (reRun (chCl '.') (c :: v)).flatMap _ ++ reRun .eps (c :: v) = _
      rw [e1]
      rfl

/-- A list of single-result elements flattens to a map. -/
theorem flatMap_singleton {α β : Type} (l : List α) (f : α → List β)
    (g : α → β) (h : ∀ a ∈ l, f a = [g a]) : l.flatMap f = l.map g := by
  induction l with
  | nil => rfl
  | cons a l ih =>
      rw [List.flatMap_cons, h a (List.mem_cons_self a l), List.map_cons,
        ih (fun b hb => h b (List.mem_cons_of_mem a hb))]
      rfl

/-- The weight group on a plain digit run followed by a non-digit,
non-dot remainder: the greedy candidates are exactly the run prefixes,
longest first, with no fractional part. -/
theorem reRun_numCore_plain (I z : List Char) (hI : ∀ c ∈ I, digitCh c = true)
    (hz0 : runLen digitCh z = 0) (hz1 : ∀ c v, z = c :: v → c ≠ '.') :
    reRun numCore (I ++ z) =
      (List.range' 1 I.length).reverse.map (fun k => (([] : Caps), k)) := by
  show (reRun (.plusG digitCh) (I ++ z)).flatMap _ = _
  rw [reRun_plusG, runLen_append_all I z hI, hz0, Nat.add_zero,
    List.flatMap_map]
  apply flatMap_singleton
  intro k hk
  have hk2 : 1 ≤ k ∧ k ≤ I.length := by
    rw [List.mem_reverse, List.mem_range'_1] at hk
    omega
  have hfr : reRun (ropt (.seq (chCl '.') (.plusG digitCh)))
      ((I ++ z).drop k) = [([], 0)] := by
    apply reRun_frOpt_empty
    intro c v hv
    rcases Nat.lt_or_ge k I.length with hlt | hge
    · rw [List.drop_append_of_le_length (le_of_lt hlt)] at hv
      cases hdz : I.drop k with
      | nil =>
          have hlen : (I.drop k).length = 0 := by rw [hdz]; rfl
          rw [List.length_drop] at hlen
          omega
      | cons d w =>
          rw [hdz, List.cons_append] at hv
          have hdc : d = c := (List.cons.inj hv).1
          have hd : d ∈ I := List.drop_subset k I
            (by rw [hdz]; exact List.mem_cons_self d w)
          exact hdc ▸ digit_ne_dot (hI d hd)
    · have hke : k = I.length := le_antisymm hk2.2 hge
      rw [hke, List.drop_append_of_le_length (le_refl _), List.drop_length,
        List.nil_append] at hv
      exact hz1 c v hv
  show (reRun (ropt (.seq (chCl '.') (.plusG digitCh)))
      ((I ++ z).drop k)).map _ = _
  rw [hfr]
  rfl

theorem findSome?_cons_none {α β : Type} {a : α} {l : List α}
    {f : α → Option β} (h : f a = none) :
    (a :: l).findSome? f = l.findSome? f := by
  rw [List.findSome?_cons, h]

theorem findSome?_cons_some {α β : Type} {a : α} {l : List α}
    {f : α → Option β} {b : β} (h : f a = some b) :
    (a :: l).findSome? f = some b := by
  rw [List.findSome?_cons, h]

theorem findSome?_singleton {α β : Type} (a : α) (f : α → Option β) :
    List.findSome? f [a] = f a := by
  rw [List.findSome?_cons]
  cases f a <;> simp

/-- The weight group needs a leading digit. -/
theorem tm_grpNum_none (i : Nat) (rest : RE) (u : List Char)
    (h : runLen digitCh u = 0) :
    tailMatch (.seq (.grp i numCore) rest) u = none := by
  rw [tailMatch_seq]
  have hnum : reRun numCore u = [] := by
    show (reRun (.plusG digitCh) u).flatMap _ = []
    rw [reRun_plusG_zero h]
    rfl
  have hgrp : reRun (.grp i numCore) u = [] := by
    show (reRun numCore u).map _ = []
    rw [hnum]
    rfl
  rw [hgrp]
  rfl

/-- Mandatory whitespace fails on text that does not start with it. -/
theorem tm_plusWs_none (rest : RE) (u : List Char)
    (h : runLen isPyWs u = 0) :
    tailMatch (.seq (.plusG isPyWs) rest) u = none := by
  rw [tailMatch_seq, reRun_plusG_zero h]
  rfl

/-- The unit-then-whitespace chain after the weight fails when the text is
over or starts with a character that is neither whitespace nor а unit
letter: the optional unit matches emptily and the mandatory whitespace then
fails. -/
theorem tm_unitChain_none (rest : RE) (u : List Char)
    (h : u = [] ∨ ∃ c v, u = c :: v ∧ isPyWs c = false ∧
      pyLower c ≠ 'к' ∧ pyLower c ≠ 'k') :
    tailMatch (.seq (.starG isPyWs)
      (.seq kgOptCI (.seq (.plusG isPyWs) rest))) u = none := by
  have hws : runLen isPyWs u = 0 := by
    rcases h with rfl | ⟨c, v, rfl, hc, _, _⟩
    · rfl
    · exact runLen_cons_neg v hc
  have hkg : reRun kgOptCI u = [([], 0)] := by
    apply reRun_kgOpt_empty
    intro c v hv
    rcases h with rfl | ⟨c2, v2, hv2, _, hk1, hk2⟩
    · exact absurd hv (by simp)
    · rw [hv2] at hv
      obtain ⟨rfl, rfl⟩ : c2 = c ∧ v2 = v := ⟨(List.cons.inj hv).1, (List.cons.inj hv).2⟩
      exact ⟨hk1, hk2⟩
  rw [tailMatch_seq, reRun_starG_zero hws, findSome?_singleton]
  have hinner : tailMatch (.seq kgOptCI (.seq (.plusG isPyWs) rest)) u = none := by
    rw [tailMatch_seq, hkg, findSome?_singleton]
    have h2 : tailMatch (.seq (.plusG isPyWs) rest) (u.drop 0) = none := by
      rw [List.drop_zero]
      exact tm_plusWs_none rest u hws
    rw [h2]
    rfl
  rw [show (List.drop 0 u) = u from List.drop_zero u] at *
  rw [hinner]
  rfl

/-- The whitespace-then-x chain fails when the whitespace run is followed
by a digit or by the end of the text. -/
theorem tm_xChain_none (rest : RE) (u : List Char)
    (h : u.drop (runLen isPyWs u) = [] ∨
      ∃ c v, u.drop (runLen isPyWs u) = c :: v ∧ digitCh c = true) :
    tailMatch (.seq (.starG isPyWs) (.seq xClsCI rest)) u = none := by
  rw [tailMatch_seq, reRun_starG]
  apply List.findSome?_eq_none_iff.mpr
  intro x hx
  obtain ⟨k, hk, rfl⟩ := List.mem_map.mp hx
  have hk2 : k ≤ runLen isPyWs u := by
    rw [List.mem_reverse, List.mem_range] at hk
    omega
  have hinner : tailMatch (.seq xClsCI rest) (u.drop k) = none := by
    rw [tailMatch_seq]
    have hcls : reRun xClsCI (u.drop k) = [] := by
      rcases Nat.lt_or_ge k (runLen isPyWs u) with hlt | hge
      · obtain ⟨c, v, hcv, hc⟩ := runLen_within isPyWs u k hlt
        rw [hcv]
        exact reRun_cls_neg v (ws_not_x hc)
      · have hke : k = runLen isPyWs u := le_antisymm hk2 hge
        rw [hke]
        rcases h with h | ⟨c, v, hcv, hc⟩
        · rw [h]
          rfl
        · rw [hcv]
          exact reRun_cls_neg v (digit_not_x hc)
    rw [hcls]
    rfl
  rw [hinner]
  rfl

/-- The reps-then-x chain fails when after every candidate digit run the
following whitespace run ends in a digit or at the end of the text. -/
theorem tm_repsXChain_none (i : Nat) (rest : RE) (u : List Char)
    (h : ∀ k, 1 ≤ k → k ≤ runLen digitCh u →
      (u.drop k).drop (runLen isPyWs (u.drop k)) = [] ∨
      ∃ c v, (u.drop k).drop (runLen isPyWs (u.drop k)) = c :: v ∧
        digitCh c = true) :
    tailMatch (.seq (.grp i (.plusG digitCh))
      (.seq (.starG isPyWs) (.seq xClsCI rest))) u = none := by
  rw [tailMatch_seq]
  show List.findSome? _ ((reRun (.plusG digitCh) u).map _) = none
  rw [List.findSome?_map, reRun_plusG, List.findSome?_map]
  apply List.findSome?_eq_none_iff.mpr
  intro k hk
  have hk2 : 1 ≤ k ∧ k ≤ runLen digitCh u := by
    rw [List.mem_reverse, List.mem_range'_1] at hk
    omega
  show ((tailMatch (.seq (.starG isPyWs) (.seq xClsCI rest)) (u.drop k)).map _) = none
  rw [tm_xChain_none rest (u.drop k) (h k hk2.1 hk2.2)]
  rfl

/-- The unit-then-whitespace chain at a single separating space followed by
digits fails whenever its continuation fails on the digits. -/
theorem tm_unitChain_ws_none (rest2 : RE) (v : List Char) (c : Char)
    (w : List Char) (hv : v = c :: w) (hc : digitCh c = true)
    (hrest : tailMatch rest2 v = none) :
    tailMatch (.seq (.starG isPyWs)
      (.seq kgOptCI (.seq (.plusG isPyWs) rest2))) (' ' :: v) = none := by
  have hwv : runLen isPyWs v = 0 := by
    rw [hv]
    exact runLen_cons_neg w (notWs_of_digit c hc)
  have hws : runLen isPyWs (' ' :: v) = 1 := by
    rw [runLen_cons_pos v (by decide), hwv]
  rw [tailMatch_seq, reRun_starG_one hws]
  have hbr1 : tailMatch (.seq kgOptCI (.seq (.plusG isPyWs) rest2))
      ((' ' :: v).drop 1) = none := by
    show tailMatch _ v = none
    have hkg : reRun kgOptCI v = [([], 0)] := by
      apply reRun_kgOpt_empty
      intro d u hdu
      rw [hv] at hdu
      obtain ⟨rfl, rfl⟩ : c = d ∧ w = u := ⟨(List.cons.inj hdu).1, (List.cons.inj hdu).2⟩
      exact digit_lower_ne_k hc
    rw [tailMatch_seq, hkg, findSome?_singleton, List.drop_zero,
      tm_plusWs_none rest2 v hwv]
    rfl
  have hbr2 : tailMatch (.seq kgOptCI (.seq (.plusG isPyWs) rest2))
      ((' ' :: v).drop 0) = none := by
    rw [List.drop_zero]
    have hkg : reRun kgOptCI (' ' :: v) = [([], 0)] := by
      apply reRun_kgOpt_empty
      intro d u hdu
      obtain ⟨rfl, rfl⟩ : ' ' = d ∧ v = u := ⟨(List.cons.inj hdu).1, (List.cons.inj hdu).2⟩
      exact ⟨by decide, by decide⟩
    rw [tailMatch_seq, hkg, findSome?_singleton]
    have hp : tailMatch (.seq (.plusG isPyWs) rest2) ((' ' :: v).drop 0) = none := by
      rw [List.drop_zero, tailMatch_seq, reRun_plusG_one hws, findSome?_singleton]
      show (tailMatch rest2 ((' ' :: v).drop 1)).map _ = none
      rw [show (' ' :: v).drop 1 = v from rfl, hrest]
      rfl
    rw [hp]
    rfl
  rw [findSome?_cons_none (by rw [hbr1]; rfl),
    findSome?_cons_none (by rw [hbr2]; rfl)]
  rfl

theorem exists_cons_of_eq {α : Type} {a b : α} (t : List α) (h : a = b) :
    ∃ l, a :: t = b :: l := ⟨t, by rw [h]⟩

/-- The greedy weight-group enumeration starts with the whole weight
token: the integer part and, when present, the fractional part. -/
theorem reRun_numCore_head (W z : List Char)
    (hW : ((∀ c ∈ W, digitCh c = true) ∧ W ≠ []) ∨
      ∃ I D, I ≠ [] ∧ D ≠ [] ∧ (∀ c ∈ I, digitCh c = true) ∧
        (∀ c ∈ D, digitCh c = true) ∧ W = I ++ '.' :: D)
    (hz0 : runLen digitCh z = 0) (hz1 : ∀ c v, z = c :: v → c ≠ '.') :
    ∃ l, reRun numCore (W ++ z) = ([], W.length) :: l := by
  rcases hW with ⟨hd, hne⟩ | ⟨I, D, hI, hD, hdI, hdD, rfl⟩
  · rw [reRun_numCore_plain W z hd hz0 hz1]
    obtain ⟨m, hm⟩ : ∃ m, W.length = m + 1 := by
      cases hw : W.length with
      | zero => exact absurd (List.length_eq_zero.mp hw) hne
      | succ m => exact ⟨m, rfl⟩
    rw [hm, range'_reverse_succ]
    exact ⟨_, rfl⟩
  · have hassoc : (I ++ '.' :: D) ++ z = I ++ ('.' :: (D ++ z)) := by simp
    rw [hassoc]
    have hrun : runLen digitCh (I ++ ('.' :: (D ++ z))) = I.length := by
      rw [runLen_append_all I _ hdI, runLen_cons_neg _ (by decide)]
      rfl
    obtain ⟨m, hm⟩ : ∃ m, I.length = m + 1 := by
      cases hw : I.length with
      | zero => exact absurd (List.length_eq_zero.mp hw) hI
      | succ m => exact ⟨m, rfl⟩
    have hplus : reRun (.plusG digitCh) (I ++ ('.' :: (D ++ z))) =
        ([], I.length) ::
          (List.range' 1 m).reverse.map (fun j => (([] : Caps), j)) := by
      rw [reRun_plusG, hrun, hm, range'_reverse_succ, List.map_cons, ← hm]
    have hdrop : (I ++ ('.' :: (D ++ z))).drop I.length = '.' :: (D ++ z) :=
      List.drop_left I _
    have hrunD : runLen digitCh (D ++ z) = D.length := by
      rw [runLen_append_all D z hdD, hz0]
      rfl
    obtain ⟨mD, hmD⟩ : ∃ mD, D.length = mD + 1 := by
      cases hw : D.length with
      | zero => exact absurd (List.length_eq_zero.mp hw) hD
      | succ mD => exact ⟨mD, rfl⟩
    have hplusD : reRun (.plusG digitCh) (D ++ z) =
        ([], D.length) ::
          (List.range' 1 mD).reverse.map (fun j => (([] : Caps), j)) := by
      rw [reRun_plusG, hrunD, hmD, range'_reverse_succ, List.map_cons, ← hmD]
    obtain ⟨l2, hfr⟩ : ∃ l2,
        reRun (ropt (.seq (chCl '.') (.plusG digitCh))) ('.' :: (D ++ z)) =
          ([], 1 + D.length) :: l2 := by
      have hdot : reRun (chCl '.') ('.' :: (D ++ z)) = [([], 1)] :=
        reRun_cls_pos _ (by decide)
      show ∃ l2,
        (reRun (.seq (chCl '.') (.plusG digitCh)) ('.' :: (D ++ z))) ++
          [([], 0)] = ([], 1 + D.length) :: l2
      have hseq : reRun (.seq (chCl '.') (.plusG digitCh)) ('.' :: (D ++ z)) =
          ([], 1 + D.length) ::
            ((List.range' 1 mD).reverse.map (fun j => (([] : Caps), j))).map
              (fun b => ([] ++ b.1, 1 + b.2)) := by
        show (reRun (chCl '.') ('.' :: (D ++ z))).flatMap _ = _
        rw [hdot, List.flatMap_cons, List.flatMap_nil, List.append_nil]
        show (reRun (.plusG digitCh) (('.' :: (D ++ z)).drop 1)).map _ = _
        rw [show ('.' :: (D ++ z)).drop 1 = D ++ z from rfl, hplusD,
          List.map_cons]
        rfl
      rw [hseq]
      exact ⟨_, rfl⟩
    have hlen : I.length + (1 + D.length) = (I ++ '.' :: D).length := by
      simp
      omega
    have hnum : reRun numCore (I ++ ('.' :: (D ++ z))) =
        (reRun (.plusG digitCh) (I ++ ('.' :: (D ++ z)))).flatMap
          (fun x => (reRun (ropt (.seq (chCl '.') (.plusG digitCh)))
            ((I ++ ('.' :: (D ++ z))).drop x.2)).map
              (fun b => (x.1 ++ b.1, x.2 + b.2))) := rfl
    rw [hnum, hplus]
    simp only [List.flatMap_cons]
    rw [hdrop, hfr, List.map_cons, List.cons_append]
    apply exists_cons_of_eq
    show (([] : Caps) ++ [], I.length + (1 + D.length)) = _
    rw [hlen]
    rfl

/-- Every candidate of the weight group either consumes the whole weight
token or leaves а remainder whose head is a digit or a dot — in either
case a character on which the unit-then-whitespace chain fails. -/
theorem reRun_numCore_members (W z : List Char)
    (hW : ((∀ c ∈ W, digitCh c = true) ∧ W ≠ []) ∨
      ∃ I D, I ≠ [] ∧ D ≠ [] ∧ (∀ c ∈ I, digitCh c = true) ∧
        (∀ c ∈ D, digitCh c = true) ∧ W = I ++ '.' :: D)
    (hz0 : runLen digitCh z = 0) (hz1 : ∀ c v, z = c :: v → c ≠ '.') :
    ∀ a ∈ reRun numCore (W ++ z), a.2 = W.length ∨
      ∃ c v, (W ++ z).drop a.2 = c :: v ∧ isPyWs c = false ∧
        pyLower c ≠ 'к' ∧ pyLower c ≠ 'k' := by
  have hhead : ∀ (u : List Char) (k : Nat), k < u.length →
      (∀ c ∈ u, digitCh c = true ∨ c = '.') →
      ∀ z2 : List Char, ∃ c v, (u ++ z2).drop k = c :: v ∧ isPyWs c = false ∧
        pyLower c ≠ 'к' ∧ pyLower c ≠ 'k' := by
    intro u k hk hu z2
    rw [List.drop_append_of_le_length (le_of_lt hk)]
    cases hdz : u.drop k with
    | nil =>
        have hlen : (u.drop k).length = 0 := by rw [hdz]; rfl
        rw [List.length_drop] at hlen
        omega
    | cons d w =>
        have hd : d ∈ u := List.drop_subset k u
          (by rw [hdz]; exact List.mem_cons_self d w)
        rcases hu d hd with hdig | rfl
        · exact ⟨d, w ++ z2, by rw [List.cons_append],
            notWs_of_digit d hdig, digit_lower_ne_k hdig⟩
        · exact ⟨'.', w ++ z2, by rw [List.cons_append], by decide,
            by decide, by decide⟩
  have hWchars : ∀ c ∈ W, digitCh c = true ∨ c = '.' := by
    rcases hW with ⟨hd, _⟩ | ⟨I, D, _, _, hdI, hdD, rfl⟩
    · exact fun c hc => Or.inl (hd c hc)
    · intro c hc
      rcases List.mem_append.mp hc with h | h
      · exact Or.inl (hdI c h)
      · rcases List.mem_cons.mp h with rfl | h
        · exact Or.inr rfl
        · exact Or.inl (hdD c h)
  intro a ha
  rcases hW with ⟨hd, hne⟩ | ⟨I, D, hI, hD, hdI, hdD, hWeq⟩
  · rw [reRun_numCore_plain W z hd hz0 hz1] at ha
    obtain ⟨k, hk, rfl⟩ := List.mem_map.mp ha
    rw [List.mem_reverse, List.mem_range'_1] at hk
    rcases Nat.lt_or_ge k W.length with hlt | hge
    · exact Or.inr (hhead W k hlt hWchars z)
    · exact Or.inl (by show k = W.length; omega)
  · subst hWeq
    have hassoc : (I ++ '.' :: D) ++ z = I ++ ('.' :: (D ++ z)) := by simp
    rw [hassoc] at ha
    have hrun : runLen digitCh (I ++ ('.' :: (D ++ z))) = I.length := by
      rw [runLen_append_all I _ hdI, runLen_cons_neg _ (by decide)]
      rfl
    rw [show reRun numCore (I ++ ('.' :: (D ++ z))) =
        (reRun (.plusG digitCh) (I ++ ('.' :: (D ++ z)))).flatMap
          (fun x => (reRun (ropt (.seq (chCl '.') (.plusG digitCh)))
            ((I ++ ('.' :: (D ++ z))).drop x.2)).map
              (fun b => (x.1 ++ b.1, x.2 + b.2))) from rfl] at ha
    obtain ⟨x, hx, hax⟩ := List.mem_flatMap.mp ha
    rw [reRun_plusG, hrun] at hx
    obtain ⟨k, hk, rfl⟩ := List.mem_map.mp hx
    rw [List.mem_reverse, List.mem_range'_1] at hk
    have hlenW : (I ++ '.' :: D).length = I.length + D.length + 1 := by
      simp
      omega
    rcases Nat.lt_or_ge k I.length with hlt | hge
    · -- partial integer part: the fraction option matches emptily
      have hfr : reRun (ropt (.seq (chCl '.') (.plusG digitCh)))
          ((I ++ ('.' :: (D ++ z))).drop k) = [([], 0)] := by
        apply reRun_frOpt_empty
        intro c v hv
        rw [List.drop_append_of_le_length (le_of_lt hlt)] at hv
        cases hdz : I.drop k with
        | nil =>
            have hlen : (I.drop k).length = 0 := by rw [hdz]; rfl
            rw [List.length_drop] at hlen
            omega
        | cons d w =>
            rw [hdz, List.cons_append] at hv
            have hdc : d = c := (List.cons.inj hv).1
            have hdm : d ∈ I := List.drop_subset k I
              (by rw [hdz]; exact List.mem_cons_self d w)
            exact hdc ▸ digit_ne_dot (hdI d hdm)
      rw [hfr] at hax
      rcases List.mem_cons.mp hax with rfl | hax2
      · apply Or.inr
        have := hhead (I ++ '.' :: D) k (by omega) hWchars z
        rw [hassoc] at this
        simpa using this
      · exact absurd hax2 (List.not_mem_nil _)
    · have hke : k = I.length := by omega
      subst hke
      -- full integer part: the fraction option enumerates dot matches
      have hdrop : (I ++ ('.' :: (D ++ z))).drop I.length = '.' :: (D ++ z) :=
        List.drop_left I _
      rw [hdrop] at hax
      have hrunD : runLen digitCh (D ++ z) = D.length := by
        rw [runLen_append_all D z hdD, hz0]
        rfl
      have hseq : reRun (.seq (chCl '.') (.plusG digitCh)) ('.' :: (D ++ z)) =
          ((List.range' 1 D.length).reverse.map (fun j => (([] : Caps), j))).map
            (fun b => (([] : Caps) ++ b.1, 1 + b.2)) := by
        have hdot2 : reRun (chCl '.') ('.' :: (D ++ z)) = [([], 1)] :=
          reRun_cls_pos _ (by decide)
        show (reRun (chCl '.') ('.' :: (D ++ z))).flatMap _ = _
        rw [hdot2, List.flatMap_cons, List.flatMap_nil, List.append_nil]
        show (reRun (.plusG digitCh) (('.' :: (D ++ z)).drop 1)).map _ = _
        rw [show ('.' :: (D ++ z)).drop 1 = D ++ z from rfl, reRun_plusG, hrunD]
      have hfrsplit : reRun (ropt (.seq (chCl '.') (.plusG digitCh)))
          ('.' :: (D ++ z)) =
          ((List.range' 1 D.length).reverse.map (fun j => (([] : Caps), j))).map
            (fun b => (([] : Caps) ++ b.1, 1 + b.2)) ++ [([], 0)] := by
        show reRun (.seq (chCl '.') (.plusG digitCh)) ('.' :: (D ++ z)) ++
          [([], 0)] = _
        rw [hseq]
      rw [hfrsplit] at hax
      rcases List.mem_map.mp hax with ⟨b, hb, rfl⟩
      rcases List.mem_append.mp hb with hb1 | hb2
      · obtain ⟨y, hy, rfl⟩ := List.mem_map.mp hb1
        obtain ⟨kD, hkD, rfl⟩ := List.mem_map.mp hy
        rw [List.mem_reverse, List.mem_range'_1] at hkD
        rcases Nat.lt_or_ge kD D.length with hltD | hgeD
        · apply Or.inr
          have hpos : I.length + (1 + kD) < (I ++ '.' :: D).length := by
            rw [hlenW]; omega
          have := hhead (I ++ '.' :: D) (I.length + (1 + kD)) hpos hWchars z
          rw [hassoc] at this
          simpa using this
        · apply Or.inl
          show I.length + (1 + kD) = (I ++ '.' :: D).length
          rw [hlenW]; omega
      · rcases List.mem_cons.mp hb2 with rfl | hb3
        · apply Or.inr
          have hpos : I.length + 0 < (I ++ '.' :: D).length := by
            rw [hlenW]; omega
          have := hhead (I ++ '.' :: D) (I.length + 0) hpos hWchars z
          rw [hassoc] at this
          simpa using this
        · exact absurd hb3 (List.not_mem_nil _)


theorem patternX_eq : patternX = .seq (.grp 1 (.plusL dotCh)) tailX := rfl

theorem patternSpaces_eq : patternSpaces = .seq (.grp 1 (.plusL dotCh)) tailSp := rfl

theorem tailX_eq : tailX = .seq (.plusG isPyWs) tailXr := rfl

theorem tailXr_eq : tailXr = .seq (.grp 2 numCore) restX4 := rfl

theorem restX4_eq :
    restX4 = .seq (.starG isPyWs) (.seq kgOptCI (.seq (.plusG isPyWs) restX7)) := rfl

theorem restX7_eq :
    restX7 = .seq (.grp 3 (.plusG digitCh))
      (.seq (.starG isPyWs) (.seq xClsCI restX9)) := rfl

theorem tailSp_eq : tailSp = .seq (.plusG isPyWs) tailSpr := rfl

theorem tailSpr_eq : tailSpr = .seq (.grp 2 numCore) restSp4 := rfl

theorem restSp4_eq :
    restSp4 = .seq (.starG isPyWs) (.seq kgOptCI (.seq (.plusG isPyWs) restSp7)) := rfl

theorem restSp7_eq :
    restSp7 = .seq (.grp 3 (.plusG digitCh))
      (.seq (.plusG isPyWs) (.seq (.grp 4 (.plusG digitCh)) noteOpt)) := rfl

/-- A run over a class stops inside a part that contains a failing
character, whatever follows. -/
theorem runLen_append_of_stop (p : Char → Bool) (d z : List Char)
    (h : ∃ c ∈ d, p c = false) :
    runLen p (d ++ z) = runLen p d ∧ runLen p d < d.length := by
  induction d with
  | nil => simp at h
  | cons c d ih =>
      cases hc : p c with
      | false =>
          rw [List.cons_append, runLen_cons_neg _ hc, runLen_cons_neg _ hc]
          exact ⟨rfl, by simp⟩
      | true =>
          have hw : ∃ c2 ∈ d, p c2 = false := by
            obtain ⟨c2, hc2, hpc2⟩ := h
            rcases List.mem_cons.mp hc2 with rfl | hc2
            · rw [hc] at hpc2
              exact absurd hpc2 (by simp)
            · exact ⟨c2, hc2, hpc2⟩
          obtain ⟨ih1, ih2⟩ := ih hw
          rw [List.cons_append, runLen_cons_pos _ hc, runLen_cons_pos _ hc, ih1]
          exact ⟨rfl, by simp; omega⟩

/-- The head of a non-empty all-digit token. -/
theorem head_digit (R : List Char) (h0 : R ≠ [])
    (hd : ∀ c ∈ R, digitCh c = true) :
    ∃ c w, R = c :: w ∧ digitCh c = true := by
  cases R with
  | nil => exact absurd rfl h0
  | cons c w => exact ⟨c, w, rfl, hd c (List.mem_cons_self c w)⟩

/-- With a candidate name that stops strictly inside the real name, the
mandatory whitespace and the weight group cannot both be satisfied: the
whitespace run ends at a name character, which is not a digit. -/
theorem tm_nameRegion_none (rest : RE) (d T : List Char)
    (hws : ∃ c ∈ d, isPyWs c = false) (hdig : ∀ c ∈ d, digitCh c = false) :
    tailMatch (.seq (.plusG isPyWs) (.seq (.grp 2 numCore) rest))
      (d ++ ' ' :: T) = none := by
  obtain ⟨hr1, hr2⟩ := runLen_append_of_stop isPyWs d (' ' :: T) hws
  rw [tailMatch_seq, reRun_plusG, hr1]
  apply List.findSome?_eq_none_iff.mpr
  intro x hx
  obtain ⟨k, hk, rfl⟩ := List.mem_map.mp hx
  rw [List.mem_reverse, List.mem_range'_1] at hk
  have hk2 : 1 ≤ k ∧ k ≤ runLen isPyWs d := by omega
  have hhead : ∃ c v, (d ++ ' ' :: T).drop k = c :: v ∧ digitCh c = false := by
    rw [List.drop_append_of_le_length (by omega)]
    rcases Nat.lt_or_ge k (runLen isPyWs d) with hlt | hge
    · obtain ⟨c, v, hcv, hc⟩ := runLen_within isPyWs d k hlt
      rw [hcv]
      exact ⟨c, v ++ ' ' :: T, by rw [List.cons_append], ws_not_digit hc⟩
    · have hke : k = runLen isPyWs d := by omega
      subst hke
      rcases runLen_stop isPyWs d with hnil | ⟨c, v, hcv, hc⟩
      · have : (d.drop (runLen isPyWs d)).length = 0 := by rw [hnil]; rfl
        rw [List.length_drop] at this
        omega
      · rw [hcv]
        have hcd : c ∈ d := List.drop_subset _ d
          (by rw [hcv]; exact List.mem_cons_self c v)
        exact ⟨c, v ++ ' ' :: T, by rw [List.cons_append], hdig c hcd⟩
  obtain ⟨c, v, hcv, hc⟩ := hhead
  have hnone : tailMatch (.seq (.grp 2 numCore) rest) ((d ++ ' ' :: T).drop k) = none := by
    apply tm_grpNum_none
    rw [hcv]
    exact runLen_cons_neg v hc
  rw [hnone]
  rfl

/-- The reps-then-x chain fails on "digits, space, digits" with nothing
after: there is no x to be found. -/
theorem tm_repsX_RS_none (rest : RE) (R S : List Char)
    (hR0 : R ≠ []) (hdR : ∀ c ∈ R, digitCh c = true)
    (hS0 : S ≠ []) (hdS : ∀ c ∈ S, digitCh c = true) :
    tailMatch (.seq (.grp 3 (.plusG digitCh))
      (.seq (.starG isPyWs) (.seq xClsCI rest))) (R ++ ' ' :: S) = none := by
  apply tm_repsXChain_none
  intro k hk1 hk2
  have hrun : runLen digitCh (R ++ ' ' :: S) = R.length := by
    rw [runLen_append_all R _ hdR, runLen_cons_neg _ (by decide)]
    rfl
  rw [hrun] at hk2
  rcases Nat.lt_or_ge k R.length with hlt | hge
  · obtain ⟨c, w, hcw, hc⟩ := head_digit (R.drop k)
      (by intro hh; have := congrArg List.length hh; simp at this; omega)
      (fun c hc => hdR c (List.drop_subset k R hc))
    have hdk : (R ++ ' ' :: S).drop k = c :: (w ++ ' ' :: S) := by
      rw [List.drop_append_of_le_length (le_of_lt hlt), hcw, List.cons_append]
    rw [hdk, runLen_cons_neg _ (notWs_of_digit c hc), List.drop_zero]
    exact Or.inr ⟨c, w ++ ' ' :: S, rfl, hc⟩
  · have hke : k = R.length := by omega
    subst hke
    have hdk : (R ++ ' ' :: S).drop R.length = ' ' :: S := List.drop_left R _
    obtain ⟨c, w, hcw, hc⟩ := head_digit S hS0 hdS
    have hrws : runLen isPyWs (' ' :: S) = 1 := by
      rw [runLen_cons_pos _ (by decide), hcw, runLen_cons_neg _ (notWs_of_digit c hc)]
    rw [hdk, hrws]
    exact Or.inr ⟨c, w, by rw [show (' ' :: S).drop 1 = S from rfl, hcw], hc⟩

/-- The reps-then-x chain also fails on a final digit run alone. -/
theorem tm_repsX_S_none (rest : RE) (S : List Char)
    (hdS : ∀ c ∈ S, digitCh c = true) :
    tailMatch (.seq (.grp 3 (.plusG digitCh))
      (.seq (.starG isPyWs) (.seq xClsCI rest))) S = none := by
  apply tm_repsXChain_none
  intro k hk1 hk2
  have hrun : runLen digitCh S = S.length := runLen_all S hdS
  rw [hrun] at hk2
  rcases Nat.lt_or_ge k S.length with hlt | hge
  · obtain ⟨c, w, hcw, hc⟩ := head_digit (S.drop k)
      (by intro hh; have := congrArg List.length hh; simp at this; omega)
      (fun c hc => hdS c (List.drop_subset k S hc))
    rw [hcw, runLen_cons_neg _ (notWs_of_digit c hc), List.drop_zero]
    exact Or.inr ⟨c, w, rfl, hc⟩
  · have hke : k = S.length := by omega
    subst hke
    rw [List.drop_length]
    exact Or.inl rfl

/-- `pattern_x` has no match starting at the final sets group. -/
theorem tailX_S_none (S : List Char) (hS0 : S ≠ [])
    (hdS : ∀ c ∈ S, digitCh c = true) :
    tailMatch tailX (' ' :: S) = none := by
  obtain ⟨c, w, hcw, hc⟩ := head_digit S hS0 hdS
  have hrws : runLen isPyWs (' ' :: S) = 1 := by
    rw [runLen_cons_pos _ (by decide), hcw, runLen_cons_neg _ (notWs_of_digit c hc)]
  rw [tailX_eq, tailMatch_seq, reRun_plusG_one hrws, findSome?_singleton]
  have hin : tailMatch tailXr ((' ' :: S).drop 1) = none := by
    rw [show (' ' :: S).drop 1 = S from rfl, tailXr_eq, tailMatch_seq]
    show List.findSome? _ ((reRun numCore S).map _) = none
    rw [show (S : List Char) = S ++ [] by simp,
      reRun_numCore_plain S [] hdS rfl (by intro c2 v2 h2; simp at h2),
      List.findSome?_map, List.findSome?_map]
    apply List.findSome?_eq_none_iff.mpr
    intro k hk
    rw [List.mem_reverse, List.mem_range'_1] at hk
    have hnone : tailMatch restX4 ((S ++ ([] : List Char)).drop k) = none := by
      rw [restX4_eq]
      apply tm_unitChain_none
      rcases Nat.lt_or_ge k S.length with hlt | hge
      · obtain ⟨c2, w2, hcw2, hc2⟩ := head_digit (S.drop k)
          (by intro hh; have := congrArg List.length hh; simp at this; omega)
          (fun c2 hc2 => hdS c2 (List.drop_subset k S hc2))
        refine Or.inr ⟨c2, w2 ++ [], ?_, notWs_of_digit c2 hc2,
          digit_lower_ne_k hc2⟩
        rw [List.drop_append_of_le_length (le_of_lt hlt), hcw2, List.cons_append]
      · have hke : k = S.length := by omega
        subst hke
        rw [List.drop_append_of_le_length (le_refl _), List.drop_length,
          List.nil_append]
        exact Or.inl rfl
    simp only [Function.comp]
    rw [hnone]
    rfl
  rw [hin]
  rfl

/-- `pattern_x` has no match starting at the reps group of the
space-separated form. -/
theorem tailX_RS_none (R S : List Char)
    (hR0 : R ≠ []) (hdR : ∀ c ∈ R, digitCh c = true)
    (hS0 : S ≠ []) (hdS : ∀ c ∈ S, digitCh c = true) :
    tailMatch tailX (' ' :: (R ++ ' ' :: S)) = none := by
  obtain ⟨cR, wR, hcwR, hcR⟩ := head_digit R hR0 hdR
  have hrws : runLen isPyWs (' ' :: (R ++ ' ' :: S)) = 1 := by
    rw [runLen_cons_pos _ (by decide), hcwR, List.cons_append,
      runLen_cons_neg _ (notWs_of_digit cR hcR)]
  rw [tailX_eq, tailMatch_seq, reRun_plusG_one hrws, findSome?_singleton]
  have hin : tailMatch tailXr ((' ' :: (R ++ ' ' :: S)).drop 1) = none := by
    rw [show (' ' :: (R ++ ' ' :: S)).drop 1 = R ++ ' ' :: S from rfl,
      tailXr_eq, tailMatch_seq]
    show List.findSome? _ ((reRun numCore (R ++ ' ' :: S)).map _) = none
    rw [reRun_numCore_plain R (' ' :: S) hdR
        (runLen_cons_neg _ (by decide))
        (by intro c2 v2 h2; rw [(List.cons.inj h2).1.symm]; decide),
      List.findSome?_map, List.findSome?_map]
    apply List.findSome?_eq_none_iff.mpr
    intro k hk
    rw [List.mem_reverse, List.mem_range'_1] at hk
    have hnone : tailMatch restX4 ((R ++ ' ' :: S).drop k) = none := by
      rcases Nat.lt_or_ge k R.length with hlt | hge
      · rw [restX4_eq]
        apply tm_unitChain_none
        obtain ⟨c2, w2, hcw2, hc2⟩ := head_digit (R.drop k)
          (by intro hh; have := congrArg List.length hh; simp at this; omega)
          (fun c2 hc2 => hdR c2 (List.drop_subset k R hc2))
        refine Or.inr ⟨c2, w2 ++ ' ' :: S, ?_, notWs_of_digit c2 hc2,
          digit_lower_ne_k hc2⟩
        rw [List.drop_append_of_le_length (le_of_lt hlt), hcw2, List.cons_append]
      · have hke : k = R.length := by omega
        subst hke
        rw [List.drop_left R, restX4_eq]
        obtain ⟨cS, wS, hcwS, hcS⟩ := head_digit S hS0 hdS
        apply tm_unitChain_ws_none restX7 S cS wS hcwS hcS
        rw [restX7_eq]
        exact tm_repsX_S_none _ S hdS
    simp only [Function.comp]
    rw [hnone]
    rfl
  rw [hin]
  rfl

/-- `pattern_x` has no match starting at the weight group of the
space-separated form: after the weight and the reps there is no x. -/
theorem tailX_WRS_none (W R S : List Char)
    (hW : ((∀ c ∈ W, digitCh c = true) ∧ W ≠ []) ∨
      ∃ I D, I ≠ [] ∧ D ≠ [] ∧ (∀ c ∈ I, digitCh c = true) ∧
        (∀ c ∈ D, digitCh c = true) ∧ W = I ++ '.' :: D)
    (hR0 : R ≠ []) (hdR : ∀ c ∈ R, digitCh c = true)
    (hS0 : S ≠ []) (hdS : ∀ c ∈ S, digitCh c = true) :
    tailMatch tailX (' ' :: (W ++ ' ' :: (R ++ ' ' :: S))) = none := by
  have hWhead : ∃ c w, W = c :: w ∧ digitCh c = true := by
    rcases hW with ⟨hd, hne⟩ | ⟨I, D, hI, _, hdI, _, rfl⟩
    · exact head_digit W hne hd
    · obtain ⟨c, w, hcw, hc⟩ := head_digit I hI hdI
      exact ⟨c, w ++ '.' :: D, by rw [hcw, List.cons_append], hc⟩
  obtain ⟨cW, wW, hcwW, hcW⟩ := hWhead
  have hrws : runLen isPyWs (' ' :: (W ++ ' ' :: (R ++ ' ' :: S))) = 1 := by
    rw [runLen_cons_pos _ (by decide), hcwW, List.cons_append,
      runLen_cons_neg _ (notWs_of_digit cW hcW)]
  rw [tailX_eq, tailMatch_seq, reRun_plusG_one hrws, findSome?_singleton]
  have hin : tailMatch tailXr
      ((' ' :: (W ++ ' ' :: (R ++ ' ' :: S))).drop 1) = none := by
    rw [show (' ' :: (W ++ ' ' :: (R ++ ' ' :: S))).drop 1 =
      W ++ ' ' :: (R ++ ' ' :: S) from rfl, tailXr_eq, tailMatch_seq]
    show List.findSome? _ ((reRun numCore (W ++ ' ' :: (R ++ ' ' :: S))).map _) = none
    rw [List.findSome?_map]
    apply List.findSome?_eq_none_iff.mpr
    intro a ha
    have hmem := reRun_numCore_members W (' ' :: (R ++ ' ' :: S)) hW
      (runLen_cons_neg _ (by decide))
      (by intro c2 v2 h2; rw [(List.cons.inj h2).1.symm]; decide) a ha
    have hnone : tailMatch restX4 ((W ++ ' ' :: (R ++ ' ' :: S)).drop a.2) = none := by
      rcases hmem with heq | ⟨c2, v2, hcv2, hws2, hk1, hk2⟩
      · rw [heq, List.drop_left W, restX4_eq]
        obtain ⟨cR, wR, hcwR, hcR⟩ := head_digit R hR0 hdR
        apply tm_unitChain_ws_none restX7 (R ++ ' ' :: S) cR (wR ++ ' ' :: S)
          (by rw [hcwR, List.cons_append]) hcR
        rw [restX7_eq]
        exact tm_repsX_RS_none _ R S hR0 hdR hS0 hdS
      · rw [restX4_eq]
        exact tm_unitChain_none _ _ (Or.inr ⟨c2, v2, hcv2, hws2, hk1, hk2⟩)
    simp only [Function.comp]
    rw [hnone]
    rfl
  rw [hin]
  rfl

/-- `pattern_x` matches no suffix of the empty text. -/
theorem tailX_nil_none : tailMatch tailX [] = none := by
  rw [tailX_eq]
  exact tm_plusWs_none tailXr [] rfl

/-- Every suffix of the numeric tail of the space-separated form fails
`pattern_x`: lifting a failing head over a cons. -/
theorem af_cons {c : Char} {v : List Char}
    (h0 : tailMatch tailX (c :: v) = none)
    (h1 : ∀ i, tailMatch tailX (v.drop i) = none) :
    ∀ i, tailMatch tailX ((c :: v).drop i) = none := by
  intro i
  cases i with
  | zero => exact h0
  | succ i => exact h1 i

/-- Lifting suffix failure over a block of non-whitespace characters. -/
theorem af_append_nonws (u v : List Char)
    (hu : ∀ c ∈ u, isPyWs c = false)
    (hv : ∀ i, tailMatch tailX (v.drop i) = none) :
    ∀ i, tailMatch tailX ((u ++ v).drop i) = none := by
  induction u with
  | nil => simpa using hv
  | cons c u ih =>
      rw [List.cons_append]
      apply af_cons
      · rw [tailX_eq]
        exact tm_plusWs_none tailXr _
          (runLen_cons_neg _ (hu c (List.mem_cons_self c u)))
      · exact ih (fun d hd => hu d (List.mem_cons_of_mem c hd))


theorem tailMatch_noteOpt_nil : tailMatch noteOpt [] = some ([], 0) := rfl

/-- The final sets group followed by the optional note succeeds on a bare
digit run, capturing the whole run. -/
theorem tm_grp4_success (S : List Char) (hS0 : S ≠ [])
    (hdS : ∀ c ∈ S, digitCh c = true) :
    tailMatch restX9 S = some ([(4, S)], S.length) := by
  obtain ⟨cS, wS, hcwS, hcS⟩ := head_digit S hS0 hdS
  have hws0 : runLen isPyWs S = 0 := by
    rw [hcwS]
    exact runLen_cons_neg _ (notWs_of_digit cS hcS)
  have hdig : runLen digitCh S = S.length := runLen_all S hdS
  obtain ⟨m, hm⟩ : ∃ m, S.length = m + 1 := by
    cases hw : S.length with
    | zero => exact absurd (List.length_eq_zero.mp hw) hS0
    | succ m => exact ⟨m, rfl⟩
  have hplus : reRun (.plusG digitCh) S =
      ([], S.length) :: (List.range' 1 m).reverse.map (fun j => (([] : Caps), j)) := by
    rw [reRun_plusG, hdig, hm, range'_reverse_succ, List.map_cons, ← hm]
  have hinner : tailMatch (.seq (.grp 4 (.plusG digitCh)) noteOpt) S =
      some ([(4, S)], S.length) := by
    rw [tailMatch_seq]
    show List.findSome? _ ((reRun (.plusG digitCh) S).map _) = _
    rw [hplus, List.map_cons]
    apply findSome?_cons_some
    show (tailMatch noteOpt (S.drop S.length)).map _ = _
    rw [List.drop_length, tailMatch_noteOpt_nil]
    show some (((4, S.take S.length) :: []) ++ [], S.length + 0) = _
    rw [List.take_length]
    rfl
  show tailMatch (.seq (.starG isPyWs) (.seq (.grp 4 (.plusG digitCh)) noteOpt)) S = _
  rw [tailMatch_seq, reRun_starG_zero hws0, findSome?_singleton]
  show (tailMatch (.seq (.grp 4 (.plusG digitCh)) noteOpt) (S.drop 0)).map _ = _
  rw [List.drop_zero, hinner]
  simp

/-- From the x separator on, `pattern_x` consumes the x and the sets. -/
theorem tm_x_success (S : List Char) (hS0 : S ≠ [])
    (hdS : ∀ c ∈ S, digitCh c = true) :
    tailMatch (.seq xClsCI restX9) ('x' :: S) =
      some ([(4, S)], 1 + S.length) := by
  have hx : reRun xClsCI ('x' :: S) = [([], 1)] :=
    reRun_cls_pos _ (by decide)
  rw [tailMatch_seq, hx, findSome?_singleton]
  show (tailMatch restX9 (('x' :: S).drop 1)).map _ = _
  rw [show ('x' :: S).drop 1 = S from rfl, tm_grp4_success S hS0 hdS]
  rfl

/-- From the reps group of the x form on: digits, the x, more digits. -/
theorem tm_reps_x_success (R S : List Char)
    (hR0 : R ≠ []) (hdR : ∀ c ∈ R, digitCh c = true)
    (hS0 : S ≠ []) (hdS : ∀ c ∈ S, digitCh c = true) :
    tailMatch restX7 (R ++ 'x' :: S) =
      some ([(3, R), (4, S)], R.length + (0 + (1 + S.length))) := by
  have hdig : runLen digitCh (R ++ 'x' :: S) = R.length := by
    rw [runLen_append_all R _ hdR, runLen_cons_neg _ (by decide)]
    rfl
  obtain ⟨m, hm⟩ : ∃ m, R.length = m + 1 := by
    cases hw : R.length with
    | zero => exact absurd (List.length_eq_zero.mp hw) hR0
    | succ m => exact ⟨m, rfl⟩
  have hplus : reRun (.plusG digitCh) (R ++ 'x' :: S) =
      ([], R.length) :: (List.range' 1 m).reverse.map (fun j => (([] : Caps), j)) := by
    rw [reRun_plusG, hdig, hm, range'_reverse_succ, List.map_cons, ← hm]
  have hxs : tailMatch (.seq (.starG isPyWs) (.seq xClsCI restX9)) ('x' :: S) =
      some ([(4, S)], 0 + (1 + S.length)) := by
    have hws0 : runLen isPyWs ('x' :: S) = 0 :=
      runLen_cons_neg _ (by decide)
    rw [tailMatch_seq, reRun_starG_zero hws0, findSome?_singleton]
    show (tailMatch (.seq xClsCI restX9) (('x' :: S).drop 0)).map _ = _
    rw [List.drop_zero, tm_x_success S hS0 hdS]
    rfl
  rw [restX7_eq, tailMatch_seq]
  show List.findSome? _ ((reRun (.plusG digitCh) (R ++ 'x' :: S)).map _) = _
  rw [hplus, List.map_cons]
  apply findSome?_cons_some
  show (tailMatch (.seq (.starG isPyWs) (.seq xClsCI restX9))
    ((R ++ 'x' :: S).drop R.length)).map _ = _
  rw [List.drop_left R, hxs]
  show some (((3, (R ++ 'x' :: S).take R.length) :: []) ++ [(4, S)], _) = _
  rw [List.take_left R]
  rfl

/-- After the weight of the x form: skip no whitespace, no unit, one
space, then reps-x-sets. -/
theorem tm_restX4_success (R S : List Char)
    (hR0 : R ≠ []) (hdR : ∀ c ∈ R, digitCh c = true)
    (hS0 : S ≠ []) (hdS : ∀ c ∈ S, digitCh c = true) :
    ∃ n, tailMatch restX4 (' ' :: (R ++ 'x' :: S)) =
      some ([(3, R), (4, S)], n) := by
  obtain ⟨cR, wR, hcwR, hcR⟩ := head_digit R hR0 hdR
  have hws1 : runLen isPyWs (' ' :: (R ++ 'x' :: S)) = 1 := by
    rw [runLen_cons_pos _ (by decide), hcwR, List.cons_append,
      runLen_cons_neg _ (notWs_of_digit cR hcR)]
  have hkgR : reRun kgOptCI (R ++ 'x' :: S) = [([], 0)] := by
    apply reRun_kgOpt_empty
    intro d u hdu
    rw [hcwR, List.cons_append] at hdu
    obtain ⟨rfl, rfl⟩ : cR = d ∧ wR ++ 'x' :: S = u :=
      ⟨(List.cons.inj hdu).1, (List.cons.inj hdu).2⟩
    exact digit_lower_ne_k hcR
  have hbranch1 : tailMatch (.seq kgOptCI (.seq (.plusG isPyWs) restX7))
      ((' ' :: (R ++ 'x' :: S)).drop 1) = none := by
    rw [show (' ' :: (R ++ 'x' :: S)).drop 1 = R ++ 'x' :: S from rfl,
      tailMatch_seq, hkgR, findSome?_singleton]
    have hz : runLen isPyWs (R ++ 'x' :: S) = 0 := by
      rw [hcwR, List.cons_append]
      exact runLen_cons_neg _ (notWs_of_digit cR hcR)
    have hn : tailMatch (.seq (.plusG isPyWs) restX7)
        ((R ++ 'x' :: S).drop 0) = none := by
      rw [List.drop_zero]
      exact tm_plusWs_none restX7 _ hz
    rw [hn]
    rfl
  have hbranch2 : tailMatch (.seq kgOptCI (.seq (.plusG isPyWs) restX7))
      ((' ' :: (R ++ 'x' :: S)).drop 0) =
      some ([(3, R), (4, S)],
        0 + (1 + (R.length + (0 + (1 + S.length))))) := by
    rw [List.drop_zero]
    have hkgSp : reRun kgOptCI (' ' :: (R ++ 'x' :: S)) = [([], 0)] := by
      apply reRun_kgOpt_empty
      intro d u hdu
      obtain ⟨rfl, rfl⟩ : ' ' = d ∧ R ++ 'x' :: S = u :=
        ⟨(List.cons.inj hdu).1, (List.cons.inj hdu).2⟩
      exact ⟨by decide, by decide⟩
    rw [tailMatch_seq, hkgSp, findSome?_singleton]
    have hp : tailMatch (.seq (.plusG isPyWs) restX7)
        ((' ' :: (R ++ 'x' :: S)).drop 0) =
        some ([(3, R), (4, S)], 1 + (R.length + (0 + (1 + S.length)))) := by
      rw [List.drop_zero, tailMatch_seq, reRun_plusG_one hws1,
        findSome?_singleton]
      show (tailMatch restX7 ((' ' :: (R ++ 'x' :: S)).drop 1)).map _ = _
      rw [show (' ' :: (R ++ 'x' :: S)).drop 1 = R ++ 'x' :: S from rfl,
        tm_reps_x_success R S hR0 hdR hS0 hdS]
      rfl
    rw [hp]
    rfl
  refine ⟨0 + (0 + (1 + (R.length + (0 + (1 + S.length))))), ?_⟩
  rw [restX4_eq, tailMatch_seq, reRun_starG_one hws1]
  rw [findSome?_cons_none (by rw [hbranch1]; rfl)]
  apply findSome?_cons_some
  rw [hbranch2]
  rfl

/-- The whole x-form tail after the name: one space, the weight, one
space, reps, the x, sets. -/
theorem tailX_success (W R S : List Char)
    (hW : ((∀ c ∈ W, digitCh c = true) ∧ W ≠ []) ∨
      ∃ I D, I ≠ [] ∧ D ≠ [] ∧ (∀ c ∈ I, digitCh c = true) ∧
        (∀ c ∈ D, digitCh c = true) ∧ W = I ++ '.' :: D)
    (hR0 : R ≠ []) (hdR : ∀ c ∈ R, digitCh c = true)
    (hS0 : S ≠ []) (hdS : ∀ c ∈ S, digitCh c = true) :
    ∃ n, tailMatch tailX (' ' :: (W ++ ' ' :: (R ++ 'x' :: S))) =
      some ([(2, W), (3, R), (4, S)], n) := by
  have hWhead : ∃ c w, W = c :: w ∧ digitCh c = true := by
    rcases hW with ⟨hd, hne⟩ | ⟨I, D, hI, _, hdI, _, rfl⟩
    · exact head_digit W hne hd
    · obtain ⟨c, w, hcw, hc⟩ := head_digit I hI hdI
      exact ⟨c, w ++ '.' :: D, by rw [hcw, List.cons_append], hc⟩
  obtain ⟨cW, wW, hcwW, hcW⟩ := hWhead
  have hws1 : runLen isPyWs (' ' :: (W ++ ' ' :: (R ++ 'x' :: S))) = 1 := by
    rw [runLen_cons_pos _ (by decide), hcwW, List.cons_append,
      runLen_cons_neg _ (notWs_of_digit cW hcW)]
  obtain ⟨lnum, hnum⟩ := reRun_numCore_head W (' ' :: (R ++ 'x' :: S)) hW
    (runLen_cons_neg _ (by decide))
    (by intro c2 v2 h2; rw [(List.cons.inj h2).1.symm]; decide)
  obtain ⟨n4, h4⟩ := tm_restX4_success R S hR0 hdR hS0 hdS
  have hinner : tailMatch tailXr (W ++ ' ' :: (R ++ 'x' :: S)) =
      some ([(2, W), (3, R), (4, S)], W.length + n4) := by
    rw [tailXr_eq, tailMatch_seq]
    show List.findSome? _ ((reRun numCore (W ++ ' ' :: (R ++ 'x' :: S))).map _) = _
    rw [hnum, List.map_cons]
    apply findSome?_cons_some
    show (tailMatch restX4 ((W ++ ' ' :: (R ++ 'x' :: S)).drop W.length)).map _ = _
    rw [List.drop_left W, h4]
    show some (((2, (W ++ ' ' :: (R ++ 'x' :: S)).take W.length) :: []) ++
      [(3, R), (4, S)], _) = _
    rw [List.take_left W]
    rfl
  refine ⟨1 + (W.length + n4), ?_⟩
  rw [tailX_eq, tailMatch_seq, reRun_plusG_one hws1, findSome?_singleton]
  show (tailMatch tailXr ((' ' :: (W ++ ' ' :: (R ++ 'x' :: S))).drop 1)).map _ = _
  rw [show (' ' :: (W ++ ' ' :: (R ++ 'x' :: S))).drop 1 =
    W ++ ' ' :: (R ++ 'x' :: S) from rfl, hinner]
  rfl

/-- From the reps group of the space form on: digits, a space, digits. -/
theorem tm_reps_sp_success (R S : List Char)
    (hR0 : R ≠ []) (hdR : ∀ c ∈ R, digitCh c = true)
    (hS0 : S ≠ []) (hdS : ∀ c ∈ S, digitCh c = true) :
    ∃ n, tailMatch restSp7 (R ++ ' ' :: S) = some ([(3, R), (4, S)], n) := by
  have hdig : runLen digitCh (R ++ ' ' :: S) = R.length := by
    rw [runLen_append_all R _ hdR, runLen_cons_neg _ (by decide)]
    rfl
  obtain ⟨m, hm⟩ : ∃ m, R.length = m + 1 := by
    cases hw : R.length with
    | zero => exact absurd (List.length_eq_zero.mp hw) hR0
    | succ m => exact ⟨m, rfl⟩
  have hplus : reRun (.plusG digitCh) (R ++ ' ' :: S) =
      ([], R.length) :: (List.range' 1 m).reverse.map (fun j => (([] : Caps), j)) := by
    rw [reRun_plusG, hdig, hm, range'_reverse_succ, List.map_cons, ← hm]
  obtain ⟨cS, wS, hcwS, hcS⟩ := head_digit S hS0 hdS
  have hws1 : runLen isPyWs (' ' :: S) = 1 := by
    rw [runLen_cons_pos _ (by decide), hcwS,
      runLen_cons_neg _ (notWs_of_digit cS hcS)]
  have hgrp4 : tailMatch (.seq (.grp 4 (.plusG digitCh)) noteOpt) S =
      some ([(4, S)], S.length) := by
    have hdigS : runLen digitCh S = S.length := runLen_all S hdS
    obtain ⟨mS, hmS⟩ : ∃ mS, S.length = mS + 1 := by
      cases hw : S.length with
      | zero => exact absurd (List.length_eq_zero.mp hw) hS0
      | succ mS => exact ⟨mS, rfl⟩
    have hplusS : reRun (.plusG digitCh) S =
        ([], S.length) ::
          (List.range' 1 mS).reverse.map (fun j => (([] : Caps), j)) := by
      rw [reRun_plusG, hdigS, hmS, range'_reverse_succ, List.map_cons, ← hmS]
    rw [tailMatch_seq]
    show List.findSome? _ ((reRun (.plusG digitCh) S).map _) = _
    rw [hplusS, List.map_cons]
    apply findSome?_cons_some
    show (tailMatch noteOpt (S.drop S.length)).map _ = _
    rw [List.drop_length, tailMatch_noteOpt_nil]
    show some (((4, S.take S.length) :: []) ++ [], S.length + 0) = _
    rw [List.take_length]
    rfl
  have hmid : tailMatch (.seq (.plusG isPyWs)
      (.seq (.grp 4 (.plusG digitCh)) noteOpt)) (' ' :: S) =
      some ([(4, S)], 1 + S.length) := by
    rw [tailMatch_seq, reRun_plusG_one hws1, findSome?_singleton]
    show (tailMatch (.seq (.grp 4 (.plusG digitCh)) noteOpt)
      ((' ' :: S).drop 1)).map _ = _
    rw [show (' ' :: S).drop 1 = S from rfl, hgrp4]
    rfl
  refine ⟨R.length + (1 + S.length), ?_⟩
  rw [restSp7_eq, tailMatch_seq]
  show List.findSome? _ ((reRun (.plusG digitCh) (R ++ ' ' :: S)).map _) = _
  rw [hplus, List.map_cons]
  apply findSome?_cons_some
  show (tailMatch (.seq (.plusG isPyWs) (.seq (.grp 4 (.plusG digitCh)) noteOpt))
    ((R ++ ' ' :: S).drop R.length)).map _ = _
  rw [List.drop_left R, hmid]
  show some (((3, (R ++ ' ' :: S).take R.length) :: []) ++ [(4, S)], _) = _
  rw [List.take_left R]
  rfl

/-- The whole space-form tail after the name, against `pattern_spaces`. -/
theorem tailSp_success (W R S : List Char)
    (hW : ((∀ c ∈ W, digitCh c = true) ∧ W ≠ []) ∨
      ∃ I D, I ≠ [] ∧ D ≠ [] ∧ (∀ c ∈ I, digitCh c = true) ∧
        (∀ c ∈ D, digitCh c = true) ∧ W = I ++ '.' :: D)
    (hR0 : R ≠ []) (hdR : ∀ c ∈ R, digitCh c = true)
    (hS0 : S ≠ []) (hdS : ∀ c ∈ S, digitCh c = true) :
    ∃ n, tailMatch tailSp (' ' :: (W ++ ' ' :: (R ++ ' ' :: S))) =
      some ([(2, W), (3, R), (4, S)], n) := by
  have hWhead : ∃ c w, W = c :: w ∧ digitCh c = true := by
    rcases hW with ⟨hd, hne⟩ | ⟨I, D, hI, _, hdI, _, rfl⟩
    · exact head_digit W hne hd
    · obtain ⟨c, w, hcw, hc⟩ := head_digit I hI hdI
      exact ⟨c, w ++ '.' :: D, by rw [hcw, List.cons_append], hc⟩
  obtain ⟨cW, wW, hcwW, hcW⟩ := hWhead
  obtain ⟨cR, wR, hcwR, hcR⟩ := head_digit R hR0 hdR
  have hws1 : runLen isPyWs (' ' :: (W ++ ' ' :: (R ++ ' ' :: S))) = 1 := by
    rw [runLen_cons_pos _ (by decide), hcwW, List.cons_append,
      runLen_cons_neg _ (notWs_of_digit cW hcW)]
  obtain ⟨lnum, hnum⟩ := reRun_numCore_head W (' ' :: (R ++ ' ' :: S)) hW
    (runLen_cons_neg _ (by decide))
    (by intro c2 v2 h2; rw [(List.cons.inj h2).1.symm]; decide)
  obtain ⟨n7, h7⟩ := tm_reps_sp_success R S hR0 hdR hS0 hdS
  have hws1R : runLen isPyWs (' ' :: (R ++ ' ' :: S)) = 1 := by
    rw [runLen_cons_pos _ (by decide), hcwR, List.cons_append,
      runLen_cons_neg _ (notWs_of_digit cR hcR)]
  have hbranch1 : tailMatch (.seq kgOptCI (.seq (.plusG isPyWs) restSp7))
      ((' ' :: (R ++ ' ' :: S)).drop 1) = none := by
    rw [show (' ' :: (R ++ ' ' :: S)).drop 1 = R ++ ' ' :: S from rfl]
    have hkgR : reRun kgOptCI (R ++ ' ' :: S) = [([], 0)] := by
      apply reRun_kgOpt_empty
      intro d u hdu
      rw [hcwR, List.cons_append] at hdu
      obtain ⟨rfl, rfl⟩ : cR = d ∧ wR ++ ' ' :: S = u :=
        ⟨(List.cons.inj hdu).1, (List.cons.inj hdu).2⟩
      exact digit_lower_ne_k hcR
    have hz : runLen isPyWs (R ++ ' ' :: S) = 0 := by
      rw [hcwR, List.cons_append]
      exact runLen_cons_neg _ (notWs_of_digit cR hcR)
    rw [tailMatch_seq, hkgR, findSome?_singleton]
    have hn : tailMatch (.seq (.plusG isPyWs) restSp7)
        ((R ++ ' ' :: S).drop 0) = none := by
      rw [List.drop_zero]
      exact tm_plusWs_none restSp7 _ hz
    rw [hn]
    rfl
  have hbranch2 : tailMatch (.seq kgOptCI (.seq (.plusG isPyWs) restSp7))
      ((' ' :: (R ++ ' ' :: S)).drop 0) =
      some ([(3, R), (4, S)], 0 + (1 + n7)) := by
    rw [List.drop_zero]
    have hkgSp : reRun kgOptCI (' ' :: (R ++ ' ' :: S)) = [([], 0)] := by
      apply reRun_kgOpt_empty
      intro d u hdu
      obtain ⟨rfl, rfl⟩ : ' ' = d ∧ R ++ ' ' :: S = u :=
        ⟨(List.cons.inj hdu).1, (List.cons.inj hdu).2⟩
      exact ⟨by decide, by decide⟩
    rw [tailMatch_seq, hkgSp, findSome?_singleton]
    have hp : tailMatch (.seq (.plusG isPyWs) restSp7)
        ((' ' :: (R ++ ' ' :: S)).drop 0) = some ([(3, R), (4, S)], 1 + n7) := by
      rw [List.drop_zero, tailMatch_seq, reRun_plusG_one hws1R,
        findSome?_singleton]
      show (tailMatch restSp7 ((' ' :: (R ++ ' ' :: S)).drop 1)).map _ = _
      rw [show (' ' :: (R ++ ' ' :: S)).drop 1 = R ++ ' ' :: S from rfl, h7]
      rfl
    rw [hp]
    rfl
  have hrest4 : tailMatch restSp4 (' ' :: (R ++ ' ' :: S)) =
      some ([(3, R), (4, S)], 0 + (0 + (1 + n7))) := by
    rw [restSp4_eq, tailMatch_seq, reRun_starG_one hws1R]
    rw [findSome?_cons_none (by rw [hbranch1]; rfl)]
    apply findSome?_cons_some
    rw [hbranch2]
    rfl
  have hinner : tailMatch tailSpr (W ++ ' ' :: (R ++ ' ' :: S)) =
      some ([(2, W), (3, R), (4, S)], W.length + (0 + (0 + (1 + n7)))) := by
    rw [tailSpr_eq, tailMatch_seq]
    show List.findSome? _ ((reRun numCore (W ++ ' ' :: (R ++ ' ' :: S))).map _) = _
    rw [hnum, List.map_cons]
    apply findSome?_cons_some
    show (tailMatch restSp4 ((W ++ ' ' :: (R ++ ' ' :: S)).drop W.length)).map _ = _
    rw [List.drop_left W, hrest4]
    show some (((2, (W ++ ' ' :: (R ++ ' ' :: S)).take W.length) :: []) ++
      [(3, R), (4, S)], _) = _
    rw [List.take_left W]
    rfl
  refine ⟨1 + (W.length + (0 + (0 + (1 + n7)))), ?_⟩
  rw [tailSp_eq, tailMatch_seq, reRun_plusG_one hws1, findSome?_singleton]
  show (tailMatch tailSpr ((' ' :: (W ++ ' ' :: (R ++ ' ' :: S))).drop 1)).map _ = _
  rw [show (' ' :: (W ++ ' ' :: (R ++ ' ' :: S))).drop 1 =
    W ++ ' ' :: (R ++ ' ' :: S) from rfl, hinner]
  rfl


theorem joinSp_cons₂ (t u : List Char) (v : List (List Char)) :
    joinSp (t :: u :: v) = t ++ ' ' :: joinSp (u :: v) := rfl

/-- Joining a concatenation of two non-empty token lists splits at a
space. -/
theorem joinSp_append (l1 l2 : List (List Char)) (h1 : l1 ≠ []) (h2 : l2 ≠ []) :
    joinSp (l1 ++ l2) = joinSp l1 ++ ' ' :: joinSp l2 := by
  induction l1 with
  | nil => exact absurd rfl h1
  | cons t ts ih =>
      cases ts with
      | nil =>
          cases l2 with
          | nil => exact absurd rfl h2
          | cons u us => rfl
      | cons t2 ts2 =>
          have h := ih (by simp)
          cases l2 with
          | nil => exact absurd rfl h2
          | cons u us =>
              show joinSp (t :: ((t2 :: ts2) ++ u :: us)) =
                (t ++ ' ' :: joinSp (t2 :: ts2)) ++ ' ' :: joinSp (u :: us)
              rw [show (t2 :: ts2) ++ u :: us = t2 :: (ts2 ++ u :: us) from rfl,
                joinSp_cons₂,
                show t2 :: (ts2 ++ u :: us) = (t2 :: ts2) ++ u :: us from rfl, h]
              simp

/-- The join of non-empty tokens is non-empty. -/
theorem joinSp_ne_nil (toks : List (List Char)) (h0 : toks ≠ [])
    (h : ∀ t ∈ toks, t ≠ []) : joinSp toks ≠ [] := by
  cases toks with
  | nil => exact absurd rfl h0
  | cons t ts =>
      cases ts with
      | nil => exact h t (List.mem_cons_self t [])
      | cons t2 ts2 =>
          rw [joinSp_cons₂]
          simp

/-- Every character of a join is a space or a token character. -/
theorem joinSp_chars (toks : List (List Char)) :
    ∀ c ∈ joinSp toks, c = ' ' ∨ ∃ t ∈ toks, c ∈ t := by
  induction toks with
  | nil => intro c hc; exact absurd hc (List.not_mem_nil c)
  | cons t ts ih =>
      cases ts with
      | nil =>
          intro c hc
          exact Or.inr ⟨t, List.mem_cons_self t [], hc⟩
      | cons t2 ts2 =>
          intro c hc
          rw [joinSp_cons₂] at hc
          rcases List.mem_append.mp hc with h | h
          · exact Or.inr ⟨t, List.mem_cons_self _ _, h⟩
          · rcases List.mem_cons.mp h with rfl | h2
            · exact Or.inl rfl
            · rcases ih c h2 with h3 | ⟨u, hu, hcu⟩
              · exact Or.inl h3
              · exact Or.inr ⟨u, List.mem_cons_of_mem t hu, hcu⟩

/-- The join of non-empty whitespace-free tokens ends in a non-whitespace
character. -/
theorem joinSp_getLast (toks : List (List Char)) (h0 : toks ≠ [])
    (h : ∀ t ∈ toks, t ≠ [] ∧ ∀ c ∈ t, isPyWs c = false) :
    ∃ c, (joinSp toks).getLast? = some c ∧ isPyWs c = false := by
  induction toks with
  | nil => exact absurd rfl h0
  | cons t ts ih =>
      cases ts with
      | nil =>
          obtain ⟨hne, hnw⟩ := h t (List.mem_cons_self t [])
          cases ht : t.getLast? with
          | none => exact absurd (List.getLast?_eq_none_iff.mp ht) hne
          | some c =>
              exact ⟨c, ht, hnw c (List.mem_of_getLast?_eq_some ht)⟩
      | cons t2 ts2 =>
          obtain ⟨c, hc, hcw⟩ := ih (by simp)
            (fun u hu => h u (List.mem_cons_of_mem t hu))
          refine ⟨c, ?_, hcw⟩
          rw [joinSp_cons₂,
            show t ++ ' ' :: joinSp (t2 :: ts2) =
              t ++ ([' '] ++ joinSp (t2 :: ts2)) from rfl,
            List.getLast?_append, List.getLast?_append, hc]
          rfl

/-- Any non-whitespace character is matched by the dot class. -/
theorem dot_of_not_ws {c : Char} (h : isPyWs c = false) : dotCh c = true := by
  have hne : c ≠ '\n' := by
    intro hc
    subst hc
    simp [isPyWs] at h
  simp [dotCh, hne]

/-- The dot class accepts every digit. -/
theorem dot_of_digit {c : Char} (h : digitCh c = true) : dotCh c = true :=
  dot_of_not_ws (notWs_of_digit c h)

/-- A token containing a digit anywhere is not a recognized number word. -/
theorem isNumberWord_mem_digit_false (t : List Char) (c : Char)
    (hc : c ∈ t) (hd : digitCh c = true) : isNumberWord t = false := by
  unfold isNumberWord
  by_contra hcon
  have hmem : t ∈ allNumberWords := by
    have hcontains : allNumberWords.contains t = true := by
      cases hh : allNumberWords.contains t
      · exact absurd hh hcon
      · rfl
    exact List.elem_iff.mp hcontains
  have hany : t.any digitCh = true := List.any_eq_true.mpr ⟨c, hc, hd⟩
  rw [allNumberWords_no_digit t hmem] at hany
  exact Bool.false_ne_true hany

/-- A weight string (digits, optionally with one dot) is non-empty. -/
theorem wShape_ne_nil {W : List Char}
    (hW : ((∀ c ∈ W, digitCh c = true) ∧ W ≠ []) ∨
      ∃ I D, I ≠ [] ∧ D ≠ [] ∧ (∀ c ∈ I, digitCh c = true) ∧
        (∀ c ∈ D, digitCh c = true) ∧ W = I ++ '.' :: D) : W ≠ [] := by
  rcases hW with ⟨_, hne⟩ | ⟨I, D, hI, _, _, _, rfl⟩
  · exact hne
  · cases I with
    | nil => exact absurd rfl hI
    | cons a as => simp

/-- A weight string is whitespace-free. -/
theorem wShape_nonws {W : List Char}
    (hW : ((∀ c ∈ W, digitCh c = true) ∧ W ≠ []) ∨
      ∃ I D, I ≠ [] ∧ D ≠ [] ∧ (∀ c ∈ I, digitCh c = true) ∧
        (∀ c ∈ D, digitCh c = true) ∧ W = I ++ '.' :: D) :
    ∀ c ∈ W, isPyWs c = false := by
  rcases hW with ⟨hd, _⟩ | ⟨I, D, _, _, hdI, hdD, rfl⟩
  · exact fun c hc => notWs_of_digit c (hd c hc)
  · intro c hc
    rcases List.mem_append.mp hc with h | h
    · exact notWs_of_digit c (hdI c h)
    · rcases List.mem_cons.mp h with rfl | h2
      · decide
      · exact notWs_of_digit c (hdD c h2)

/-- A weight string contains a digit. -/
theorem wShape_has_digit {W : List Char}
    (hW : ((∀ c ∈ W, digitCh c = true) ∧ W ≠ []) ∨
      ∃ I D, I ≠ [] ∧ D ≠ [] ∧ (∀ c ∈ I, digitCh c = true) ∧
        (∀ c ∈ D, digitCh c = true) ∧ W = I ++ '.' :: D) :
    ∃ c ∈ W, digitCh c = true := by
  rcases hW with ⟨hd, hne⟩ | ⟨I, D, hI, _, hdI, _, rfl⟩
  · obtain ⟨c, w, rfl, hc⟩ := head_digit W hne hd
    exact ⟨c, List.mem_cons_self c w, hc⟩
  · obtain ⟨c, w, rfl, hc⟩ := head_digit I hI hdI
    exact ⟨c, by simp, hc⟩

/-- Lowercasing fixes a token containing a digit at that digit, so the
lowercased token is still not a number word. -/
theorem numword_false_of_digit_mem (t : List Char) (c : Char)
    (hc : c ∈ t) (hd : digitCh c = true) :
    isNumberWord (t.map pyLower) = false := by
  apply isNumberWord_mem_digit_false (t.map pyLower) c
  · rw [show (c : Char) = pyLower c from (pyLower_digit c hd).symm]
    exact List.mem_map_of_mem pyLower hc
  · exact hd

/-- `parse_voice_numbers` is the identity on a single-space join of
non-empty, whitespace-free tokens none of which lowercases to a number
word. -/
theorem pvn_fix (toks : List (List Char))
    (h : ∀ t ∈ toks, t ≠ [] ∧ (∀ c ∈ t, isPyWs c = false) ∧
      isNumberWord (t.map pyLower) = false) :
    parse_voice_numbers (joinSp toks) = joinSp toks := by
  unfold parse_voice_numbers
  rw [pySplit_joinSp toks (fun t ht => ⟨(h t ht).1, (h t ht).2.1⟩),
    pvnLoop_passthrough toks [] (fun t ht => (h t ht).2.2)]
  simp

/-- On a well-shaped "name weight repsxsets" input, `pattern_x` matches,
capturing the name, the weight, the reps and the sets. -/
theorem reMatch_patternX_tmpl (J W R S : List Char)
    (hJne : J ≠ [])
    (hJlast : ∃ c, J.getLast? = some c ∧ isPyWs c = false)
    (hJdig : ∀ c ∈ J, digitCh c = false)
    (hJdot : ∀ c ∈ J, dotCh c = true)
    (hW : ((∀ c ∈ W, digitCh c = true) ∧ W ≠ []) ∨
      ∃ I D, I ≠ [] ∧ D ≠ [] ∧ (∀ c ∈ I, digitCh c = true) ∧
        (∀ c ∈ D, digitCh c = true) ∧ W = I ++ '.' :: D)
    (hR0 : R ≠ []) (hdR : ∀ c ∈ R, digitCh c = true)
    (hS0 : S ≠ []) (hdS : ∀ c ∈ S, digitCh c = true) :
    reMatch patternX (J ++ ' ' :: (W ++ ' ' :: (R ++ 'x' :: S))) =
      some [(1, J), (2, W), (3, R), (4, S)] := by
  have hWdot : ∀ c ∈ W, dotCh c = true := by
    intro c hc
    rcases hW with ⟨hd, _⟩ | ⟨I, D, _, _, hdI, hdD, rfl⟩
    · exact dot_of_digit (hd c hc)
    · rcases List.mem_append.mp hc with h | h
      · exact dot_of_digit (hdI c h)
      · rcases List.mem_cons.mp h with rfl | h2
        · decide
        · exact dot_of_digit (hdD c h2)
  have hsdot : ∀ c ∈ (J ++ ' ' :: (W ++ ' ' :: (R ++ 'x' :: S))),
      dotCh c = true := by
    intro c hc
    rcases List.mem_append.mp hc with hc | hc
    · exact hJdot c hc
    rcases List.mem_cons.mp hc with rfl | hc
    · decide
    rcases List.mem_append.mp hc with hc | hc
    · exact hWdot c hc
    rcases List.mem_cons.mp hc with rfl | hc
    · decide
    rcases List.mem_append.mp hc with hc | hc
    · exact dot_of_digit (hdR c hc)
    rcases List.mem_cons.mp hc with rfl | hc
    · decide
    · exact dot_of_digit (hdS c hc)
  obtain ⟨a, ha⟩ : ∃ a, J.length = a + 1 := by
    cases J with
    | nil => exact absurd rfl hJne
    | cons c v => exact ⟨v.length, rfl⟩
  rw [patternX_eq, reMatch_nameSplit, runLen_all _ hsdot]
  have hsplit : List.range' 1 (J ++ ' ' :: (W ++ ' ' :: (R ++ 'x' :: S))).length =
      List.range' 1 a ++ List.range' (1 + a)
        ((W ++ ' ' :: (R ++ 'x' :: S)).length + 1 + 1) := by
    have h1 : (J ++ ' ' :: (W ++ ' ' :: (R ++ 'x' :: S))).length =
        ((W ++ ' ' :: (R ++ 'x' :: S)).length + 1 + 1) + a := by
      rw [List.length_append, List.length_cons]
      omega
    rw [h1, ← List.range'_append 1 a ((W ++ ' ' :: (R ++ 'x' :: S)).length + 1 + 1) 1]
    norm_num
  rw [hsplit, List.findSome?_append]
  have hfirst : List.findSome?
      (fun j => (tailMatch tailX
          ((J ++ ' ' :: (W ++ ' ' :: (R ++ 'x' :: S))).drop j)).map
        (fun b => ((1, (J ++ ' ' :: (W ++ ' ' :: (R ++ 'x' :: S))).take j) :: b.1,
          j + b.2)))
      (List.range' 1 a) = none := by
    apply List.findSome?_eq_none_iff.mpr
    intro j hj
    rw [List.mem_range'_1] at hj
    have hdropj : (J ++ ' ' :: (W ++ ' ' :: (R ++ 'x' :: S))).drop j =
        J.drop j ++ ' ' :: (W ++ ' ' :: (R ++ 'x' :: S)) :=
      List.drop_append_of_le_length (by omega)
    have hws : ∃ c ∈ J.drop j, isPyWs c = false := by
      obtain ⟨c, hc, hcw⟩ := hJlast
      refine ⟨c, ?_, hcw⟩
      apply List.mem_of_getLast?_eq_some
      rw [List.getLast?_drop, if_neg (by omega)]
      exact hc
    have hdig : ∀ c ∈ J.drop j, digitCh c = false :=
      fun c hc => hJdig c (List.drop_subset j J hc)
    have hnone : tailMatch tailX
        ((J ++ ' ' :: (W ++ ' ' :: (R ++ 'x' :: S))).drop j) = none := by
      rw [hdropj]
      exact tm_nameRegion_none restX4 (J.drop j)
        (W ++ ' ' :: (R ++ 'x' :: S)) hws hdig
    rw [hnone]
    rfl
  rw [hfirst, Option.none_or, List.range'_succ]
  obtain ⟨n, hsucc⟩ := tailX_success W R S hW hR0 hdR hS0 hdS
  have hval : (fun j => (tailMatch tailX
        ((J ++ ' ' :: (W ++ ' ' :: (R ++ 'x' :: S))).drop j)).map
      (fun b => ((1, (J ++ ' ' :: (W ++ ' ' :: (R ++ 'x' :: S))).take j) :: b.1,
        j + b.2))) (1 + a) =
      some ((1, J) :: [(2, W), (3, R), (4, S)], (1 + a) + n) := by
    show (tailMatch tailX
        ((J ++ ' ' :: (W ++ ' ' :: (R ++ 'x' :: S))).drop (1 + a))).map
      (fun b => ((1, (J ++ ' ' :: (W ++ ' ' :: (R ++ 'x' :: S))).take (1 + a)) :: b.1,
        (1 + a) + b.2)) = _
    rw [show 1 + a = J.length from by omega, List.drop_left, List.take_left, hsucc]
    rfl
  rw [findSome?_cons_some (f := fun j => (tailMatch tailX
      ((J ++ ' ' :: (W ++ ' ' :: (R ++ 'x' :: S))).drop j)).map
    (fun b => ((1, (J ++ ' ' :: (W ++ ' ' :: (R ++ 'x' :: S))).take j) :: b.1,
      j + b.2))) hval]
  rfl

/-- On the space-separated form, `pattern_x` never matches: whatever
prefix is tried as the name, the x between reps and sets is missing. -/
theorem reMatch_patternX_sp_none (J W R S : List Char)
    (hJlast : ∃ c, J.getLast? = some c ∧ isPyWs c = false)
    (hJdig : ∀ c ∈ J, digitCh c = false)
    (hW : ((∀ c ∈ W, digitCh c = true) ∧ W ≠ []) ∨
      ∃ I D, I ≠ [] ∧ D ≠ [] ∧ (∀ c ∈ I, digitCh c = true) ∧
        (∀ c ∈ D, digitCh c = true) ∧ W = I ++ '.' :: D)
    (hR0 : R ≠ []) (hdR : ∀ c ∈ R, digitCh c = true)
    (hS0 : S ≠ []) (hdS : ∀ c ∈ S, digitCh c = true) :
    reMatch patternX (J ++ ' ' :: (W ++ ' ' :: (R ++ ' ' :: S))) = none := by
  have afS : ∀ i, tailMatch tailX (S.drop i) = none := by
    intro i
    rcases Nat.lt_or_ge i S.length with hlt | hge
    · have hne : S.drop i ≠ [] := by
        apply List.ne_nil_of_length_pos
        rw [List.length_drop]
        omega
      obtain ⟨c, v, hcv, hc⟩ := head_digit (S.drop i) hne
        (fun c hc => hdS c (List.drop_subset i S hc))
      rw [tailX_eq, hcv]
      exact tm_plusWs_none tailXr _ (runLen_cons_neg v (notWs_of_digit c hc))
    · rw [List.drop_eq_nil_of_le hge]
      exact tailX_nil_none
  have afWsS := af_cons (tailX_S_none S hS0 hdS) afS
  have afRWsS := af_append_nonws R (' ' :: S)
    (fun c hc => notWs_of_digit c (hdR c hc)) afWsS
  have afC2 := af_cons (tailX_RS_none R S hR0 hdR hS0 hdS) afRWsS
  have afW := af_append_nonws W (' ' :: (R ++ ' ' :: S)) (wShape_nonws hW) afC2
  have afTT := af_cons (tailX_WRS_none W R S hW hR0 hdR hS0 hdS) afW
  rw [patternX_eq, reMatch_nameSplit]
  have hnone : List.findSome?
      (fun j => (tailMatch tailX
          ((J ++ ' ' :: (W ++ ' ' :: (R ++ ' ' :: S))).drop j)).map
        (fun b => ((1, (J ++ ' ' :: (W ++ ' ' :: (R ++ ' ' :: S))).take j) :: b.1,
          j + b.2)))
      (List.range' 1
        (runLen dotCh (J ++ ' ' :: (W ++ ' ' :: (R ++ ' ' :: S))))) = none := by
    apply List.findSome?_eq_none_iff.mpr
    intro j hj
    rw [List.mem_range'_1] at hj
    rcases Nat.lt_or_ge j J.length with hjJ | hge
    · have hdropj : (J ++ ' ' :: (W ++ ' ' :: (R ++ ' ' :: S))).drop j =
          J.drop j ++ ' ' :: (W ++ ' ' :: (R ++ ' ' :: S)) :=
        List.drop_append_of_le_length (by omega)
      have hws : ∃ c ∈ J.drop j, isPyWs c = false := by
        obtain ⟨c, hc, hcw⟩ := hJlast
        refine ⟨c, ?_, hcw⟩
        apply List.mem_of_getLast?_eq_some
        rw [List.getLast?_drop, if_neg (by omega)]
        exact hc
      have hdig : ∀ c ∈ J.drop j, digitCh c = false :=
        fun c hc => hJdig c (List.drop_subset j J hc)
      have hnj : tailMatch tailX
          ((J ++ ' ' :: (W ++ ' ' :: (R ++ ' ' :: S))).drop j) = none := by
        rw [hdropj]
        exact tm_nameRegion_none restX4 (J.drop j)
          (W ++ ' ' :: (R ++ ' ' :: S)) hws hdig
      rw [hnj]
      rfl
    · have hdropj : (J ++ ' ' :: (W ++ ' ' :: (R ++ ' ' :: S))).drop j =
          (' ' :: (W ++ ' ' :: (R ++ ' ' :: S))).drop (j - J.length) := by
        rw [List.drop_append_eq_append_drop, List.drop_eq_nil_of_le hge,
          List.nil_append]
      rw [hdropj, afTT (j - J.length)]
      rfl
  rw [hnone]
  rfl

/-- On a well-shaped "name weight reps sets" input, `pattern_spaces`
matches, capturing the name, the weight, the reps and the sets. -/
theorem reMatch_patternSp_tmpl (J W R S : List Char)
    (hJne : J ≠ [])
    (hJlast : ∃ c, J.getLast? = some c ∧ isPyWs c = false)
    (hJdig : ∀ c ∈ J, digitCh c = false)
    (hJdot : ∀ c ∈ J, dotCh c = true)
    (hW : ((∀ c ∈ W, digitCh c = true) ∧ W ≠ []) ∨
      ∃ I D, I ≠ [] ∧ D ≠ [] ∧ (∀ c ∈ I, digitCh c = true) ∧
        (∀ c ∈ D, digitCh c = true) ∧ W = I ++ '.' :: D)
    (hR0 : R ≠ []) (hdR : ∀ c ∈ R, digitCh c = true)
    (hS0 : S ≠ []) (hdS : ∀ c ∈ S, digitCh c = true) :
    reMatch patternSpaces (J ++ ' ' :: (W ++ ' ' :: (R ++ ' ' :: S))) =
      some [(1, J), (2, W), (3, R), (4, S)] := by
  have hWdot : ∀ c ∈ W, dotCh c = true := by
    intro c hc
    rcases hW with ⟨hd, _⟩ | ⟨I, D, _, _, hdI, hdD, rfl⟩
    · exact dot_of_digit (hd c hc)
    · rcases List.mem_append.mp hc with h | h
      · exact dot_of_digit (hdI c h)
      · rcases List.mem_cons.mp h with rfl | h2
        · decide
        · exact dot_of_digit (hdD c h2)
  have hsdot : ∀ c ∈ (J ++ ' ' :: (W ++ ' ' :: (R ++ ' ' :: S))),
      dotCh c = true := by
    intro c hc
    rcases List.mem_append.mp hc with hc | hc
    · exact hJdot c hc
    rcases List.mem_cons.mp hc with rfl | hc
    · decide
    rcases List.mem_append.mp hc with hc | hc
    · exact hWdot c hc
    rcases List.mem_cons.mp hc with rfl | hc
    · decide
    rcases List.mem_append.mp hc with hc | hc
    · exact dot_of_digit (hdR c hc)
    rcases List.mem_cons.mp hc with rfl | hc
    · decide
    · exact dot_of_digit (hdS c hc)
  obtain ⟨a, ha⟩ : ∃ a, J.length = a + 1 := by
    cases J with
    | nil => exact absurd rfl hJne
    | cons c v => exact ⟨v.length, rfl⟩
  rw [patternSpaces_eq, reMatch_nameSplit, runLen_all _ hsdot]
  have hsplit : List.range' 1 (J ++ ' ' :: (W ++ ' ' :: (R ++ ' ' :: S))).length =
      List.range' 1 a ++ List.range' (1 + a)
        ((W ++ ' ' :: (R ++ ' ' :: S)).length + 1 + 1) := by
    have h1 : (J ++ ' ' :: (W ++ ' ' :: (R ++ ' ' :: S))).length =
        ((W ++ ' ' :: (R ++ ' ' :: S)).length + 1 + 1) + a := by
      rw [List.length_append, List.length_cons]
      omega
    rw [h1, ← List.range'_append 1 a ((W ++ ' ' :: (R ++ ' ' :: S)).length + 1 + 1) 1]
    norm_num
  rw [hsplit, List.findSome?_append]
  have hfirst : List.findSome?
      (fun j => (tailMatch tailSp
          ((J ++ ' ' :: (W ++ ' ' :: (R ++ ' ' :: S))).drop j)).map
        (fun b => ((1, (J ++ ' ' :: (W ++ ' ' :: (R ++ ' ' :: S))).take j) :: b.1,
          j + b.2)))
      (List.range' 1 a) = none := by
    apply List.findSome?_eq_none_iff.mpr
    intro j hj
    rw [List.mem_range'_1] at hj
    have hdropj : (J ++ ' ' :: (W ++ ' ' :: (R ++ ' ' :: S))).drop j =
        J.drop j ++ ' ' :: (W ++ ' ' :: (R ++ ' ' :: S)) :=
      List.drop_append_of_le_length (by omega)
    have hws : ∃ c ∈ J.drop j, isPyWs c = false := by
      obtain ⟨c, hc, hcw⟩ := hJlast
      refine ⟨c, ?_, hcw⟩
      apply List.mem_of_getLast?_eq_some
      rw [List.getLast?_drop, if_neg (by omega)]
      exact hc
    have hdig : ∀ c ∈ J.drop j, digitCh c = false :=
      fun c hc => hJdig c (List.drop_subset j J hc)
    have hnone : tailMatch tailSp
        ((J ++ ' ' :: (W ++ ' ' :: (R ++ ' ' :: S))).drop j) = none := by
      rw [hdropj]
      exact tm_nameRegion_none restSp4 (J.drop j)
        (W ++ ' ' :: (R ++ ' ' :: S)) hws hdig
    rw [hnone]
    rfl
  rw [hfirst, Option.none_or, List.range'_succ]
  obtain ⟨n, hsucc⟩ := tailSp_success W R S hW hR0 hdR hS0 hdS
  have hval : (fun j => (tailMatch tailSp
        ((J ++ ' ' :: (W ++ ' ' :: (R ++ ' ' :: S))).drop j)).map
      (fun b => ((1, (J ++ ' ' :: (W ++ ' ' :: (R ++ ' ' :: S))).take j) :: b.1,
        j + b.2))) (1 + a) =
      some ((1, J) :: [(2, W), (3, R), (4, S)], (1 + a) + n) := by
    show (tailMatch tailSp
        ((J ++ ' ' :: (W ++ ' ' :: (R ++ ' ' :: S))).drop (1 + a))).map
      (fun b => ((1, (J ++ ' ' :: (W ++ ' ' :: (R ++ ' ' :: S))).take (1 + a)) :: b.1,
        (1 + a) + b.2)) = _
    rw [show 1 + a = J.length from by omega, List.drop_left, List.take_left, hsucc]
    rfl
  rw [findSome?_cons_some (f := fun j => (tailMatch tailSp
      ((J ++ ' ' :: (W ++ ' ' :: (R ++ ' ' :: S))).drop j)).map
    (fun b => ((1, (J ++ ' ' :: (W ++ ' ' :: (R ++ ' ' :: S))).take j) :: b.1,
      j + b.2))) hval]
  rfl

/-- C9: format-equivalence of the two accepted shapes, amended.  It holds
whenever the name is a single-space join of non-empty tokens containing
neither whitespace nor digits and lowercasing to no voice number word, and
w, r, s are digit strings (w optionally with a fractional part): both
"name w rxs" and "name w r s" then produce the record built from the
stripped name, weight w, reps r, sets s and no note.  The unrestricted
claim is false: a name that itself ends in numeric tokens is split
differently by the two shapes, so the fields disagree. -/
theorem c9_format_equivalence (now : Int) (toks : List (List Char))
    (W R S : List Char)
    (htoks0 : toks ≠ [])
    (htoks : ∀ t ∈ toks, t ≠ [] ∧
      (∀ c ∈ t, isPyWs c = false ∧ digitCh c = false) ∧
      isNumberWord (t.map pyLower) = false)
    (hW : ((∀ c ∈ W, digitCh c = true) ∧ W ≠ []) ∨
      ∃ I D, I ≠ [] ∧ D ≠ [] ∧ (∀ c ∈ I, digitCh c = true) ∧
        (∀ c ∈ D, digitCh c = true) ∧ W = I ++ '.' :: D)
    (hR0 : R ≠ []) (hdR : ∀ c ∈ R, digitCh c = true)
    (hS0 : S ≠ []) (hdS : ∀ c ∈ S, digitCh c = true) :
    parse_add_input now ⟨joinSp toks ++ ' ' :: (W ++ ' ' :: (R ++ 'x' :: S))⟩ =
      mkExercise none ⟨pyStrip (joinSp toks)⟩ (ratOfNumStr W)
        (natOfDigits R) (natOfDigits S) none now ∧
    parse_add_input now ⟨joinSp toks ++ ' ' :: (W ++ ' ' :: (R ++ ' ' :: S))⟩ =
      mkExercise none ⟨pyStrip (joinSp toks)⟩ (ratOfNumStr W)
        (natOfDigits R) (natOfDigits S) none now := by
  have hstep : ∀ s : List Char, parse_add_input now ⟨s⟩ =
      (match reMatch patternX (parse_voice_numbers s) with
       | some caps => exerciseOfCaps now caps
       | none =>
         match reMatch patternSpaces (parse_voice_numbers s) with
         | some caps => exerciseOfCaps now caps
         | none => Except.error hintMsg) := fun s => rfl
  have htokA : ∀ t ∈ toks, t ≠ [] ∧ ∀ c ∈ t, isPyWs c = false :=
    fun t ht => ⟨(htoks t ht).1, fun c hc => ((htoks t ht).2.1 c hc).1⟩
  have hJne : joinSp toks ≠ [] :=
    joinSp_ne_nil toks htoks0 (fun t ht => (htoks t ht).1)
  have hJlast : ∃ c, (joinSp toks).getLast? = some c ∧ isPyWs c = false :=
    joinSp_getLast toks htoks0 htokA
  have hJdig : ∀ c ∈ joinSp toks, digitCh c = false := by
    intro c hc
    rcases joinSp_chars toks c hc with rfl | ⟨t, ht, hct⟩
    · decide
    · exact ((htoks t ht).2.1 c hct).2
  have hJdot : ∀ c ∈ joinSp toks, dotCh c = true := by
    intro c hc
    rcases joinSp_chars toks c hc with rfl | ⟨t, ht, hct⟩
    · decide
    · exact dot_of_not_ws ((htoks t ht).2.1 c hct).1
  obtain ⟨cw, hcwW, hcWd⟩ := wShape_has_digit hW
  obtain ⟨cr, wr, hcwR, hcRd⟩ := head_digit R hR0 hdR
  obtain ⟨cs, ws2, hcwS, hcSd⟩ := head_digit S hS0 hdS
  have hcondX : ∀ t ∈ toks ++ [W, R ++ 'x' :: S], t ≠ [] ∧
      (∀ c ∈ t, isPyWs c = false) ∧ isNumberWord (t.map pyLower) = false := by
    intro t ht
    rcases List.mem_append.mp ht with h | h
    · exact ⟨(htoks t h).1, fun c hc => ((htoks t h).2.1 c hc).1,
        (htoks t h).2.2⟩
    rcases List.mem_cons.mp h with heq | h
    · rw [heq]
      exact ⟨wShape_ne_nil hW, wShape_nonws hW,
        numword_false_of_digit_mem W cw hcwW hcWd⟩
    rcases List.mem_cons.mp h with heq | h
    · rw [heq]
      refine ⟨by simp, ?_, ?_⟩
      · intro c hc
        rcases List.mem_append.mp hc with h2 | h2
        · exact notWs_of_digit c (hdR c h2)
        rcases List.mem_cons.mp h2 with rfl | h2
        · decide
        · exact notWs_of_digit c (hdS c h2)
      · exact numword_false_of_digit_mem _ cr (by rw [hcwR]; simp) hcRd
    · exact absurd h (List.not_mem_nil t)
  have hcondSp : ∀ t ∈ toks ++ [W, R, S], t ≠ [] ∧
      (∀ c ∈ t, isPyWs c = false) ∧ isNumberWord (t.map pyLower) = false := by
    intro t ht
    rcases List.mem_append.mp ht with h | h
    · exact ⟨(htoks t h).1, fun c hc => ((htoks t h).2.1 c hc).1,
        (htoks t h).2.2⟩
    rcases List.mem_cons.mp h with heq | h
    · rw [heq]
      exact ⟨wShape_ne_nil hW, wShape_nonws hW,
        numword_false_of_digit_mem W cw hcwW hcWd⟩
    rcases List.mem_cons.mp h with heq | h
    · rw [heq]
      exact ⟨hR0, fun c hc => notWs_of_digit c (hdR c hc),
        numword_false_of_digit_mem R cr (by rw [hcwR]; simp) hcRd⟩
    rcases List.mem_cons.mp h with heq | h
    · rw [heq]
      exact ⟨hS0, fun c hc => notWs_of_digit c (hdS c hc),
        numword_false_of_digit_mem S cs (by rw [hcwS]; simp) hcSd⟩
    · exact absurd h (List.not_mem_nil t)
  have hJX : joinSp (toks ++ [W, R ++ 'x' :: S]) =
      joinSp toks ++ ' ' :: (W ++ ' ' :: (R ++ 'x' :: S)) := by
    rw [joinSp_append toks [W, R ++ 'x' :: S] htoks0 (by simp)]
    rfl
  have hJSp : joinSp (toks ++ [W, R, S]) =
      joinSp toks ++ ' ' :: (W ++ ' ' :: (R ++ ' ' :: S)) := by
    rw [joinSp_append toks [W, R, S] htoks0 (by simp)]
    rfl
  have hpvnX : parse_voice_numbers
      (joinSp toks ++ ' ' :: (W ++ ' ' :: (R ++ 'x' :: S))) =
      joinSp toks ++ ' ' :: (W ++ ' ' :: (R ++ 'x' :: S)) := by
    rw [← hJX]
    exact pvn_fix _ hcondX
  have hpvnSp : parse_voice_numbers
      (joinSp toks ++ ' ' :: (W ++ ' ' :: (R ++ ' ' :: S))) =
      joinSp toks ++ ' ' :: (W ++ ' ' :: (R ++ ' ' :: S)) := by
    rw [← hJSp]
    exact pvn_fix _ hcondSp
  constructor
  · rw [hstep, hpvnX, reMatch_patternX_tmpl (joinSp toks) W R S
      hJne hJlast hJdig hJdot hW hR0 hdR hS0 hdS]
    rfl
  · rw [hstep, hpvnSp, reMatch_patternX_sp_none (joinSp toks) W R S
      hJlast hJdig hW hR0 hdR hS0 hdS,
      reMatch_patternSp_tmpl (joinSp toks) W R S
      hJne hJlast hJdig hJdot hW hR0 hdR hS0 hdS]
    rfl

/-- C9, counterexample to the unrestricted claim: for the name
"жим 80 5" with weight 70, reps 3, sets 4, the x-form parses exactly
those fields, but the space-form re-segments the same character stream as
name "жим", weight 80, reps 5, sets 70 with note "3 4". -/
theorem c9_counterexample :
    parse_add_input 0 "жим 80 5 70 3x4" =
      Except.ok ⟨none, "жим 80 5", 70, 3, 4, none, 0⟩ ∧
    parse_add_input 0 "жим 80 5 70 3 4" =
      Except.ok ⟨none, "жим", 80, 5, 70, some "3 4", 0⟩ := by
  decide

/-- C9, witness: the amended equivalence applied at the concrete input
pair "жим 80 5x3" and "жим 80 5 3". -/
theorem c9_witness :
    parse_add_input 0 ⟨joinSp [['ж', 'и', 'м']] ++ ' ' ::
        (['8', '0'] ++ ' ' :: (['5'] ++ 'x' :: ['3']))⟩ =
      mkExercise none ⟨pyStrip (joinSp [['ж', 'и', 'м']])⟩
        (ratOfNumStr ['8', '0']) (natOfDigits ['5']) (natOfDigits ['3'])
        none 0 ∧
    parse_add_input 0 ⟨joinSp [['ж', 'и', 'м']] ++ ' ' ::
        (['8', '0'] ++ ' ' :: (['5'] ++ ' ' :: ['3']))⟩ =
      mkExercise none ⟨pyStrip (joinSp [['ж', 'и', 'м']])⟩
        (ratOfNumStr ['8', '0']) (natOfDigits ['5']) (natOfDigits ['3'])
        none 0 :=
  c9_format_equivalence 0 [['ж', 'и', 'м']] ['8', '0'] ['5'] ['3']
    (by decide) (by decide) (Or.inl ⟨by decide, by decide⟩)
    (by decide) (by decide) (by decide) (by decide)

end Gym
